import Mathlib

/-!
Verification development for the construction delay analyzer.

Python `datetime` values are represented by rational timestamps measured in
days (a `datetime` is a point with micro-second resolution, hence rational),
together with explicit civil fields (year/month/day) where the source reads
them.  A Python `timedelta` subtraction followed by `.days` truncates toward
negative infinity, which is `Int.floor` on the rational difference.
Python `float` arithmetic is abstracted by exact rational arithmetic.
-/

namespace DelayAnalyzer

/-- Number of whole days of a timedelta: Python `timedelta.days` floors
toward negative infinity (`Rat.floor` is used so that concrete instances
evaluate in the kernel; `tdDays_eq` below identifies it with `Int.floor`). -/
def tdDays (x : ℚ) : ℤ := x.floor

/-- Gregorian leap-year test, as Python `calendar.isleap`. -/
def isLeap (y : ℕ) : Bool := y % 4 == 0 && (y % 100 != 0 || y % 400 == 0)

/-- Length in days of month `m` of year `y`, as `calendar.monthrange(y, m)[1]`. -/
def monthLen (y m : ℕ) : ℕ :=
  if m = 1 then 31
  else if m = 2 then (if isLeap y then 29 else 28)
  else if m = 3 then 31
  else if m = 4 then 30
  else if m = 5 then 31
  else if m = 6 then 30
  else if m = 7 then 31
  else if m = 8 then 31
  else if m = 9 then 30
  else if m = 10 then 31
  else if m = 11 then 30
  else 31

/-- Days in all years before year `y` (proleptic Gregorian, years from 1),
mirroring the computation behind Python `datetime.toordinal`. -/
def daysBeforeYear (y : ℕ) : ℕ :=
  365 * (y - 1) + (y - 1) / 4 + (y - 1) / 400 - (y - 1) / 100

/-- Days in the months of year `y` strictly before month `m`. -/
def daysBeforeMonth (y m : ℕ) : ℕ :=
  (if m = 1 then 0
   else if m = 2 then 31
   else if m = 3 then 59
   else if m = 4 then 90
   else if m = 5 then 120
   else if m = 6 then 151
   else if m = 7 then 181
   else if m = 8 then 212
   else if m = 9 then 243
   else if m = 10 then 273
   else if m = 11 then 304
   else 334)
  + (if 3 ≤ m ∧ isLeap y then 1 else 0)

/-- Proleptic-Gregorian ordinal of a civil date (0001-01-01 has ordinal 1),
as Python `datetime.toordinal`. -/
def toOrdinal (y m d : ℕ) : ℕ := daysBeforeYear y + daysBeforeMonth y m + d

/-- Civil datetime: a calendar day plus a time-of-day expressed in seconds
(rational, covering micro-second resolution). -/
structure Dt where
  year : ℕ
  month : ℕ
  day : ℕ
  secs : ℚ
deriving Repr, DecidableEq

/-- Timestamp of a datetime in days since the proleptic epoch; comparisons
and subtraction of Python datetimes coincide with the rational order here. -/
def Dt.ts (t : Dt) : ℚ := (toOrdinal t.year t.month t.day : ℚ) + t.secs / 86400

/-- First instant of the month following the month of `t`, as constructed at
the bottom of `DateUtils.get_month_windows`. -/
def nextMonthFirst (t : Dt) : Dt :=
  if t.month = 12 then ⟨t.year + 1, 1, 1, 0⟩ else ⟨t.year, t.month + 1, 1, 0⟩

/-- Last second of the month of `t`:
`datetime(year, month, monthrange(year, month)[1], 23, 59, 59)`. -/
def monthCap (t : Dt) : Dt := ⟨t.year, t.month, monthLen t.year t.month, 86399⟩

/-- Loop of `DateUtils.get_month_windows`, made total with a fuel argument;
each produced window is the pair of the timestamps of the appended
datetimes `(current_date, window_end)`. -/
def getMonthWindowsAux (endTs : ℚ) : ℕ → Dt → List (ℚ × ℚ)
  | 0, _ => []
  | fuel + 1, cur =>
    if cur.ts < endTs then
      (cur.ts, min (monthCap cur).ts endTs) :: getMonthWindowsAux endTs fuel (nextMonthFirst cur)
    else []

/-- Fuel for `getMonthWindowsAux`: an upper bound on the number of month
steps between the two dates (the cursor advances exactly one calendar month
per iteration). -/
def monthFuel (s e : Dt) : ℕ := (e.year + 1 - s.year) * 12 + 13

/-- Model of `DateUtils.get_month_windows`: the fuel bounds the number of
month steps of the loop, so the produced list is the full loop output. -/
def get_month_windows (start_date end_date : Dt) : List (ℚ × ℚ) :=
  getMonthWindowsAux end_date.ts (monthFuel start_date end_date) start_date

/-- Loop of `ForensicWindowAnalyzer.create_custom_windows`, made total with a
fuel argument; timestamps are rationals in days and `period_days` is the
Python `int` argument. -/
def createCustomWindowsAux (endTs : ℚ) (period_days : ℤ) : ℕ → ℚ → List (ℚ × ℚ)
  | 0, _ => []
  | fuel + 1, cur =>
    if cur < endTs then
      (cur, min (cur + period_days) endTs) :: createCustomWindowsAux endTs period_days fuel (min (cur + period_days) endTs)
    else []

/-- Fuel that suffices for `createCustomWindowsAux` whenever `period_days ≥ 1`:
one step per whole day of the horizon, plus one (the negated floor is the
ceiling of `endTs - startTs`, spelled with `Rat.floor` so it evaluates). -/
def customFuel (startTs endTs : ℚ) : ℕ := (-(startTs - endTs).floor).toNat + 1

/-- Model of `ForensicWindowAnalyzer.create_custom_windows` (window ids and
the trailing state writes are irrelevant to the returned window bounds). -/
def create_custom_windows (startTs endTs : ℚ) (period_days : ℤ) : List (ℚ × ℚ) :=
  createCustomWindowsAux endTs period_days (customFuel startTs endTs) startTs

/-- Relationship types of `schedule_parser.py`.  The models module imported
by `schedule_parser.py` is not among the provided sources; this enum is
modelled from the spec (section 3): four types FS, SS, FF, SF. -/
inductive RelationshipType where
  | FINISH_TO_START
  | START_TO_START
  | FINISH_TO_FINISH
  | START_TO_FINISH
deriving Repr, DecidableEq

/-- Directed dependency edge with a signed lag in days, as the
`Relationship` dataclass used by `schedule_parser.py` (modelled from the
spec, section 3, for the dataclass shape; all uses are in the source). -/
structure Relationship where
  predecessor_id : String
  successor_id : String
  relationship_type : RelationshipType
  lag : ℚ
deriving Repr, DecidableEq

/-- Activity record as used by the CPM routines of `schedule_parser.py`.
The dataclass itself lives in the models module missing from the sources;
its fields here are the ones the source reads and writes
(`duration`, planned start, early/late dates, float, criticality,
predecessor/successor id lists), with meanings fixed by the spec
(section 3).  Dates are `Option ℚ` timestamps in days. -/
structure CpmActivity where
  activity_id : String
  duration : ℚ
  start_date : Option ℚ
  early_start : Option ℚ
  early_finish : Option ℚ
  late_start : Option ℚ
  late_finish : Option ℚ
  total_float : ℚ
  is_critical : Bool
  predecessors : List String
  successors : List String
deriving Repr, DecidableEq

/-- Translation of `ScheduleParser._calculate_constraint_date`: per-type
constraint date with lag, forward (`is_forward=True`) from the predecessor
early dates, backward from the successor late dates.  The source's
`- timedelta(days=0)` terms on the FF/SF branches are additive zeros. -/
def calculate_constraint_date (a : CpmActivity) (rel_type : RelationshipType)
    (lag : ℚ) (is_forward : Bool) : Option ℚ :=
  if is_forward then
    match rel_type with
    | .FINISH_TO_START => a.early_finish.map (· + lag)
    | .START_TO_START => a.early_start.map (· + lag)
    | .FINISH_TO_FINISH => a.early_finish.map (· + lag - 0)
    | .START_TO_FINISH => a.early_start.map (· + lag - 0)
  else
    match rel_type with
    | .FINISH_TO_START => a.late_start.map (· - lag)
    | .START_TO_START => a.late_start.map (· - lag + 0)
    | .FINISH_TO_FINISH => a.late_finish.map (· - lag)
    | .START_TO_FINISH => a.late_finish.map (· - lag + 0)

/-- Lookup in the activity list by id, mirroring `activity_dict[...]`
(ids are assumed unique where the theorems need it). -/
def lookupAct (acts : List CpmActivity) (aid : String) : Option CpmActivity :=
  acts.find? (fun a => a.activity_id == aid)

/-- Relationships whose successor is `aid`: the entry `rel_dict[aid]` built
in `_calculate_critical_path`. -/
def relsFor (rels : List Relationship) (aid : String) : List Relationship :=
  rels.filter (fun r => r.successor_id == aid)

/-- Relationships whose predecessor is `aid`: the entry
`reverse_rel_dict[aid]` built in `_backward_pass_with_relationships` (the
grouping order differs from the filter order, which is irrelevant to the
minimum taken over them). -/
def relsFrom (rels : List Relationship) (aid : String) : List Relationship :=
  rels.filter (fun r => r.predecessor_id == aid)

/-- Forward-pass seeding of a single activity
(`_forward_pass_with_relationships`, start-activity loop): activities with
no predecessors get `early_start` from `start_date` when `early_start` is
unset, then `early_finish := early_start + duration` when `early_finish` is
unset.  A Python datetime is always truthy, so `not act.early_start` means
the field is `None`. -/
def seedStart (a : CpmActivity) : CpmActivity :=
  if a.predecessors = [] then
    let a1 := if a.early_start = none ∧ a.start_date ≠ none then
      { a with early_start := a.start_date } else a
    if a1.early_finish = none then
      match a1.early_start with
      | some es => { a1 with early_finish := some (es + a1.duration) }
      | none => a1
    else a1
  else a

/-- Backward-pass seeding of a single activity
(`_backward_pass_with_relationships`, finish-activity loop). -/
def seedFinish (a : CpmActivity) : CpmActivity :=
  if a.successors = [] then
    let a1 := if a.late_finish = none ∧ a.early_finish ≠ none then
      { a with late_finish := a.early_finish } else a
    if a1.late_start = none then
      match a1.late_finish with
      | some lf => { a1 with late_start := some (lf - a1.duration) }
      | none => a1
    else a1
  else a

/-- One iteration of the forward `visit` constraint loop: relationships
with a missing predecessor record (`rel.predecessor_id not in
activity_dict`) or a missing predecessor date are skipped, otherwise the
running maximum is raised. -/
def fwdStep (acts : List CpmActivity) (best : Option ℚ) (rel : Relationship) : Option ℚ :=
  match lookupAct acts rel.predecessor_id with
  | none => best
  | some pred =>
    match calculate_constraint_date pred rel.relationship_type rel.lag true with
    | none => best
    | some c =>
      match best with
      | none => some c
      | some m => if c > m then some c else some m

/-- Maximum constraint date over `rel_dict[aid]` as accumulated by the
forward `visit` body. -/
def maxConstraint (acts : List CpmActivity) (myRels : List Relationship) : Option ℚ :=
  myRels.foldl (fwdStep acts) none

/-- One iteration of the backward `visit` constraint loop. -/
def bwdStep (acts : List CpmActivity) (best : Option ℚ) (rel : Relationship) : Option ℚ :=
  match lookupAct acts rel.successor_id with
  | none => best
  | some succ =>
    match calculate_constraint_date succ rel.relationship_type rel.lag false with
    | none => best
    | some c =>
      match best with
      | none => some c
      | some m => if c < m then some c else some m

/-- Minimum constraint date over `reverse_rel_dict[aid]` as accumulated by
the backward `visit` body. -/
def minConstraint (acts : List CpmActivity) (myRels : List Relationship) : Option ℚ :=
  myRels.foldl (bwdStep acts) none

/-- Constraint contributed by one forward relationship: the per-type date
when the predecessor record exists and carries the needed early date. -/
def fwdContrib (acts : List CpmActivity) (rel : Relationship) : Option ℚ :=
  (lookupAct acts rel.predecessor_id).bind (fun pred =>
    calculate_constraint_date pred rel.relationship_type rel.lag true)

/-- Early-date update of the forward `visit` body for activity `aid`: when
`aid` has entries in `rel_dict` and some constraint contributes, set
`early_start` to the maximum and `early_finish` to it plus the duration
(a resulting datetime is always truthy, so any computed maximum applies). -/
def applyFwdUpdate (rels : List Relationship) (acts : List CpmActivity)
    (aid : String) : List CpmActivity :=
  let myRels := relsFor rels aid
  if myRels = [] then acts
  else
    match maxConstraint acts myRels with
    | none => acts
    | some d =>
      acts.map (fun b =>
        if b.activity_id == aid then
          { b with early_start := some d, early_finish := some (d + b.duration) }
        else b)

/-- Late-date update of the backward `visit` body for activity `aid`. -/
def applyBwdUpdate (rels : List Relationship) (acts : List CpmActivity)
    (aid : String) : List CpmActivity :=
  let myRels := relsFrom rels aid
  if myRels = [] then acts
  else
    match minConstraint acts myRels with
    | none => acts
    | some d =>
      acts.map (fun b =>
        if b.activity_id == aid then
          { b with late_finish := some d, late_start := some (d - b.duration) }
        else b)

/-- Recursive `visit` of the forward pass, with explicit state
(activity list, visited set as a list of ids) and fuel; predecessors are
visited first, then the early dates are updated, then the id is marked
visited. -/
def visitFwd (rels : List Relationship) :
    ℕ → List CpmActivity × List String → String → List CpmActivity × List String
  | 0, st, _ => st
  | fuel + 1, st, aid =>
    if aid ∈ st.2 then st
    else
      match lookupAct st.1 aid with
      | none => st
      | some a =>
        let st1 := a.predecessors.foldl
          (fun s pid => if (lookupAct s.1 pid).isSome then visitFwd rels fuel s pid else s) st
        (applyFwdUpdate rels st1.1 aid, aid :: st1.2)

/-- Recursive `visit` of the backward pass: successors first, then the late
dates. -/
def visitBwd (rels : List Relationship) :
    ℕ → List CpmActivity × List String → String → List CpmActivity × List String
  | 0, st, _ => st
  | fuel + 1, st, aid =>
    if aid ∈ st.2 then st
    else
      match lookupAct st.1 aid with
      | none => st
      | some a =>
        let st1 := a.successors.foldl
          (fun s sid => if (lookupAct s.1 sid).isSome then visitBwd rels fuel s sid else s) st
        (applyBwdUpdate rels st1.1 aid, aid :: st1.2)

/-- Model of `ScheduleParser._forward_pass_with_relationships`: seed the
start activities in place, then visit every activity in list order. -/
def forwardPass (rels : List Relationship) (acts : List CpmActivity) (fuel : ℕ) :
    List CpmActivity :=
  let seeded := acts.map seedStart
  (acts.foldl (fun st a => visitFwd rels fuel st a.activity_id) (seeded, [])).1

/-- Model of `ScheduleParser._backward_pass_with_relationships`: seed the
finish activities, then visit every activity in reversed list order. -/
def backwardPass (rels : List Relationship) (acts : List CpmActivity) (fuel : ℕ) :
    List CpmActivity :=
  let seeded := acts.map seedFinish
  (acts.reverse.foldl (fun st a => visitBwd rels fuel st a.activity_id) (seeded, [])).1

/-- Float-and-criticality update for one activity, from the final loop of
`ScheduleParser._calculate_critical_path`: `total_float` is set to
`(late_start - early_start).days` and `is_critical` decided from that value
when both start dates are present; afterwards `total_float` is tightened by
`min` with `(late_finish - early_finish).days` when both finish dates are
present (`is_critical` is not revisited). -/
def calcFloat (a : CpmActivity) : CpmActivity :=
  let a1 :=
    match a.early_start, a.late_start with
    | some es, some ls =>
      { a with total_float := (tdDays (ls - es) : ℚ),
               is_critical := decide ((tdDays (ls - es) : ℚ) ≤ 0) }
    | _, _ => a
  match a1.early_finish, a1.late_finish with
  | some ef, some lf => { a1 with total_float := min a1.total_float (tdDays (lf - ef) : ℚ) }
  | _, _ => a1

/-- Model of `ScheduleParser._calculate_critical_path`: forward pass,
backward pass, then the float/criticality loop over all activities. -/
def calculate_critical_path (acts : List CpmActivity) (rels : List Relationship)
    (fuel : ℕ) : List CpmActivity :=
  ((backwardPass rels (forwardPass rels acts fuel) fuel).map calcFloat)

/-- Per-type forward constraint date as worded by the spec (section 4.1):
Finish-to-Start and Finish-to-Finish use predecessor early finish plus lag,
Start-to-Start and Start-to-Finish use predecessor early start plus lag;
a missing date yields no constraint. -/
def specForwardConstraint (pred : CpmActivity) (rel_type : RelationshipType)
    (lag : ℚ) : Option ℚ :=
  match rel_type with
  | .FINISH_TO_START => pred.early_finish.map (· + lag)
  | .FINISH_TO_FINISH => pred.early_finish.map (· + lag)
  | .START_TO_START => pred.early_start.map (· + lag)
  | .START_TO_FINISH => pred.early_start.map (· + lag)

/-- Contributing forward constraint dates for activity `aid`: one per
relationship in `rel_dict[aid]` whose predecessor record exists and has the
early date the relationship type needs. -/
def fwdContributions (rels : List Relationship) (acts : List CpmActivity)
    (aid : String) : List ℚ :=
  (relsFor rels aid).filterMap (fwdContrib acts)

/-- Activity status enum of `models.py`. -/
inductive ActivityStatus where
  | NOT_STARTED
  | IN_PROGRESS
  | COMPLETED
deriving Repr, DecidableEq

/-- Delay classification enum of `models.py`. -/
inductive DelayType where
  | EXCUSABLE
  | NON_EXCUSABLE
  | COMPENSABLE
  | CONCURRENT
  | UNKNOWN
deriving Repr, DecidableEq

/-- Activity dataclass of `models.py` as used by `analysis_engine.py` and
`utils.py`; dates are `Option ℚ` timestamps in days, numeric fields are
Python floats abstracted by ℚ.  String fields that none of the verified
routines read (code, wbs, calendar, resources, constraint fields) are
omitted. -/
structure MActivity where
  activity_id : String
  activity_name : String
  original_duration : ℚ
  remaining_duration : ℚ
  start_date : Option ℚ
  finish_date : Option ℚ
  actual_start : Option ℚ
  actual_finish : Option ℚ
  total_float : ℚ
  free_float : ℚ
  status : ActivityStatus
  percent_complete : ℚ
  predecessors : List String
  successors : List String
  is_critical : Bool
  is_milestone : Bool
deriving Repr, DecidableEq

/-- Schedule dataclass of `models.py`: the `activities` dict is an
insertion-ordered association list with unique keys. -/
structure MSchedule where
  project_id : String
  project_name : String
  data_date : ℚ
  start_date : ℚ
  finish_date : ℚ
  activities : List (String × MActivity)
deriving Repr, DecidableEq

/-- Lookup in a schedule's activities dict (`schedule.activities.get(id)` /
`schedule.activities[id]`). -/
def dictFind (m : List (String × MActivity)) (k : String) : Option MActivity :=
  (m.find? (fun p => p.1 == k)).map (fun p => p.2)

/-- DelayEvent dataclass of `models.py`. -/
structure DelayEvent where
  activity_id : String
  activity_name : String
  delay_days : ℚ
  delay_type : DelayType
  start_date : ℚ
  end_date : Option ℚ
  cause : String
  responsible_party : String
  impact_on_project : ℚ
  is_concurrent : Bool
  window_id : Option String
  notes : String
deriving Repr, DecidableEq

/-- ComparisonResult dataclass of `models.py`: float-change and
milestone-delay dicts are insertion-ordered association lists. -/
structure ComparisonResult where
  baseline_schedule : MSchedule
  current_schedule : MSchedule
  delayed_activities : List MActivity
  accelerated_activities : List MActivity
  new_critical_activities : List MActivity
  removed_critical_activities : List MActivity
  float_changes : List (String × ℚ)
  milestone_delays : List (String × ℚ)
  overall_delay : ℚ
  spi : ℚ
  completion_variance : ℚ
deriving Repr, DecidableEq

/-- Mutable engine state of `AnalysisEngine`: the two schedule slots
(`None` until loaded). -/
structure Engine where
  baseline_schedule : Option MSchedule
  current_schedule : Option MSchedule
deriving Repr, DecidableEq

/-- Exceptions `compare_schedules` can propagate: the explicit
`ValueError` for missing schedules, and the `ZeroDivisionError` of
`_calculate_completion_variance`. -/
inductive CompareError where
  | notLoaded
  | zeroDivision
deriving Repr, DecidableEq

/-- Translation of `AnalysisEngine._calculate_activity_delay`: the branch
is chosen by the current activity's status, completed activities compare
actual finish (current) to planned finish (baseline), others compare the
planned finishes; missing dates fall through to `0.0`. -/
def calculate_activity_delay (baseline_act current_act : MActivity) : ℚ :=
  if current_act.status = ActivityStatus.COMPLETED ∧
      current_act.actual_finish ≠ none ∧ baseline_act.finish_date ≠ none then
    match current_act.actual_finish, baseline_act.finish_date with
    | some af, some bf => (tdDays (af - bf) : ℚ)
    | _, _ => 0
  else if current_act.status = ActivityStatus.IN_PROGRESS ∧
      current_act.finish_date ≠ none ∧ baseline_act.finish_date ≠ none then
    match current_act.finish_date, baseline_act.finish_date with
    | some cf, some bf => (tdDays (cf - bf) : ℚ)
    | _, _ => 0
  else if current_act.status = ActivityStatus.NOT_STARTED ∧
      current_act.finish_date ≠ none ∧ baseline_act.finish_date ≠ none then
    match current_act.finish_date, baseline_act.finish_date with
    | some cf, some bf => (tdDays (cf - bf) : ℚ)
    | _, _ => 0
  else 0

/-- Translation of `AnalysisEngine._calculate_milestone_delay`. -/
def calculate_milestone_delay (baseline_act current_act : MActivity) : ℚ :=
  match current_act.actual_finish with
  | some af =>
    match baseline_act.finish_date with
    | some bf => (tdDays (af - bf) : ℚ)
    | none => 0
  | none =>
    match current_act.finish_date, baseline_act.finish_date with
    | some cf, some bf => (tdDays (cf - bf) : ℚ)
    | _, _ => 0

/-- Translation of `AnalysisEngine._calculate_spi` for loaded schedules:
sums run over the baseline activities present in the current schedule. -/
def calculate_spi (baseline current : MSchedule) : ℚ :=
  let totals := baseline.activities.foldl (fun acc p =>
    match dictFind current.activities p.1 with
    | some current_act =>
      (acc.1 + p.2.original_duration,
       acc.2 + current_act.percent_complete / 100 * p.2.original_duration)
    | none => acc) ((0 : ℚ), (0 : ℚ))
  if 0 < totals.1 then totals.2 / totals.1 else 1

/-- Translation of `AnalysisEngine._calculate_completion_variance` for
loaded schedules; the `elapsed_days / total_project_days` division raises
`ZeroDivisionError` when the whole-day horizon is zero while the guard
`project_finish <= project_start` did not fire. -/
def calculate_completion_variance (baseline current : MSchedule) :
    Except CompareError ℚ :=
  if baseline.finish_date ≤ baseline.start_date then .ok 0
  else
    let total_project_days := tdDays (baseline.finish_date - baseline.start_date)
    let elapsed_days := tdDays (current.data_date - baseline.start_date)
    if total_project_days = 0 then .error .zeroDivision
    else
      let expected_completion := (elapsed_days : ℚ) / (total_project_days : ℚ) * 100
      let total_baseline_duration :=
        baseline.activities.foldl (fun s p => s + p.2.original_duration) (0 : ℚ)
      let total_earned := baseline.activities.foldl (fun s p =>
        match dictFind current.activities p.1 with
        | some c => s + c.percent_complete / 100 * p.2.original_duration
        | none => s) (0 : ℚ)
      let actual_completion :=
        if 0 < total_baseline_duration then total_earned / total_baseline_duration * 100
        else 0
      .ok (actual_completion - expected_completion)

/-- Per-activity body of the comparison loop in
`AnalysisEngine.compare_schedules`, threading the accumulating
`ComparisonResult`. -/
def compareStep (baseline current : MSchedule) (r : ComparisonResult)
    (act_id : String) : ComparisonResult :=
  match dictFind baseline.activities act_id, dictFind current.activities act_id with
  | some baseline_act, some current_act =>
    let delay_days := calculate_activity_delay baseline_act current_act
    let r := if 0 < delay_days then
        { r with delayed_activities := r.delayed_activities ++ [current_act] }
      else if delay_days < 0 then
        { r with accelerated_activities := r.accelerated_activities ++ [current_act] }
      else r
    let r := if ¬ baseline_act.is_critical ∧ current_act.is_critical then
        { r with new_critical_activities := r.new_critical_activities ++ [current_act] }
      else if baseline_act.is_critical ∧ ¬ current_act.is_critical then
        { r with removed_critical_activities := r.removed_critical_activities ++ [current_act] }
      else r
    let float_change := current_act.total_float - baseline_act.total_float
    let r := if 1 / 10 < |float_change| then
        { r with float_changes := r.float_changes ++ [(act_id, float_change)] }
      else r
    if baseline_act.is_milestone then
      let milestone_delay := calculate_milestone_delay baseline_act current_act
      if milestone_delay ≠ 0 then
        { r with milestone_delays := r.milestone_delays ++ [(act_id, milestone_delay)] }
      else r
    else r
  | _, _ => r

/-- Translation of `AnalysisEngine.compare_schedules`.  The common ids are
iterated in the baseline insertion order restricted to the current
schedule (CPython iterates the intersection set in an order that is fixed
for the loaded pair, so one deterministic order is faithful); the engine
state is returned alongside the result to make mutation visible. -/
def compare_schedules (e : Engine) : Except CompareError (ComparisonResult × Engine) :=
  match e.baseline_schedule, e.current_schedule with
  | some baseline, some current =>
    let common_ids := (baseline.activities.map (fun p => p.1)).filter
      (fun aid => (dictFind current.activities aid).isSome)
    let r0 : ComparisonResult :=
      { baseline_schedule := baseline, current_schedule := current,
        delayed_activities := [], accelerated_activities := [],
        new_critical_activities := [], removed_critical_activities := [],
        float_changes := [], milestone_delays := [],
        overall_delay := 0, spi := 1, completion_variance := 0 }
    let r1 := common_ids.foldl (compareStep baseline current) r0
    let r2 := { r1 with
      overall_delay := (tdDays (current.finish_date - baseline.finish_date) : ℚ),
      spi := calculate_spi baseline current }
    match calculate_completion_variance baseline current with
    | .error err => .error err
    | .ok cv => .ok ({ r2 with completion_variance := cv }, e)
  | _, _ => .error .notLoaded

/-- One iteration of the `earliest_successor_start` loop of
`FloatCalculator.calculate_total_float`: a successor record found in the
dict with a start date lowers the running minimum. -/
def succStep (successors : List (String × MActivity)) (e : ℚ) (succ_id : String) : ℚ :=
  match dictFind successors succ_id with
  | some s =>
    match s.start_date with
    | some st => min e st
    | none => e
  | none => e

/-- Translation of `FloatCalculator.calculate_total_float` of `utils.py`:
no finish date gives `0.0`; no successors measure to the project finish;
otherwise the running minimum starts at the project finish. -/
def utils_calculate_total_float (activity : MActivity) (project_finish : ℚ)
    (successors : List (String × MActivity)) : ℚ :=
  match activity.finish_date with
  | none => 0
  | some f =>
    if activity.successors = [] then (tdDays (project_finish - f) : ℚ)
    else
      let earliest := activity.successors.foldl (succStep successors) project_finish
      (tdDays (earliest - f) : ℚ)

/-- Start dates actually contributed by an activity's successors: one per
successor id whose record is in the dict and has a start date. -/
def succStarts (activity : MActivity) (successors : List (String × MActivity)) : List ℚ :=
  activity.successors.filterMap (fun sid => (dictFind successors sid).bind (fun s => s.start_date))

/-- Overlap test of the inner loop of
`AnalysisEngine.identify_concurrent_delays` on a sorted pair
`(delay1, delay2)`: the first event needs an end date and it must lie on or
after the second event's start (`start_date` is a non-optional datetime and
hence always truthy). -/
def overlapCheck (delay1 delay2 : DelayEvent) : Bool :=
  match delay1.end_date with
  | some e => decide (delay2.start_date ≤ e)
  | none => false

/-- Ordering key of `sorted(delay_events, key=lambda d: d.start_date)`. -/
def delayLE (d1 d2 : DelayEvent) : Prop := d1.start_date ≤ d2.start_date

instance : DecidableRel delayLE := fun d1 d2 =>
  inferInstanceAs (Decidable (d1.start_date ≤ d2.start_date))

/-- Stable sort by start date, as Python `sorted` with a key. -/
def sortByStart (evs : List DelayEvent) : List DelayEvent :=
  List.insertionSort delayLE evs

/-- Pairwise flagging pass over the sorted list: an event ends up with
`is_concurrent = True` exactly when some earlier event's end date reaches
its start, or its own end date reaches some later event's start — the
positions the O(n²) double loop of `identify_concurrent_delays` marks. -/
def flagPass (pre : List DelayEvent) : List DelayEvent → List DelayEvent
  | [] => []
  | e :: post =>
    (if pre.any (fun d => overlapCheck d e) || post.any (fun d => overlapCheck e d) then
      { e with is_concurrent := true }
    else e) :: flagPass (pre ++ [e]) post

/-- Model of `AnalysisEngine.identify_concurrent_delays`: the returned list
carries the final `is_concurrent` state of every event, in sorted order
(the Python function mutates the events in place; its separate
`concurrent_delays` return value lists the flagged ones). -/
def identify_concurrent_delays (delay_events : List DelayEvent) : List DelayEvent :=
  flagPass [] (sortByStart delay_events)

/-- Copy of a delay event with the concurrency flag cleared, used to speak
about an event irrespective of its flag state. -/
def clearFlag (e : DelayEvent) : DelayEvent := { e with is_concurrent := false }

/-- Single CPM activity whose parser-provided early/late dates make the
start float and the finish float disagree: early start 0, late start 1,
early finish 5, late finish 0. -/
def c1Act : CpmActivity :=
  ⟨"A", 1, none, some 0, some 5, some 1, some 0, 0, false, [], []⟩

/-- Well-formed civil datetime in the Python `datetime` range: month in
1..12, day within the month, time-of-day within the final second of the
day (sub-second precision included up to 23:59:59). -/
def validDt (t : Dt) : Prop :=
  1 ≤ t.year ∧ 1 ≤ t.month ∧ t.month ≤ 12 ∧ 1 ≤ t.day
  ∧ t.day ≤ monthLen t.year t.month ∧ 0 ≤ t.secs ∧ t.secs ≤ 86399

/-- Baseline-side activity for the delay computations: not started, planned
finish day 10 (and, when used as the current side, planned finish 10). -/
def c6base : MActivity :=
  ⟨"A", "a", 10, 0, some 0, some 10, none, none, 0, 0,
   ActivityStatus.NOT_STARTED, 0, [], [], false, false⟩

/-- Current-side activity: completed, actual finish day 20, planned finish
day 18. -/
def c6curr : MActivity :=
  ⟨"A", "a", 10, 0, some 0, some 18, some 2, some 20, 0, 0,
   ActivityStatus.COMPLETED, 100, [], [], false, false⟩

/-- Successor activity starting on day 100, after the project finish used
in the counterexample. -/
def c8succ : MActivity :=
  ⟨"S", "s", 5, 5, some 100, some 105, none, none, 0, 0,
   ActivityStatus.NOT_STARTED, 0, [], [], false, false⟩

/-- Activity finishing on day 40 whose only successor starts on day 100. -/
def c8act : MActivity :=
  ⟨"A", "a", 5, 5, some 35, some 40, none, none, 0, 0,
   ActivityStatus.NOT_STARTED, 0, [], ["S"], false, false⟩

/-- Predecessor activity for the forward-update witness: early finish on
day 3. -/
def c2pred : CpmActivity :=
  ⟨"P", 3, some 0, some 0, some 3, none, none, 0, false, [], ["B"]⟩

/-- Successor activity for the forward-update witness. -/
def c2succ : CpmActivity :=
  ⟨"B", 2, some 0, none, none, none, none, 0, false, ["P"], []⟩

/-- Finish-to-start relationship with one day of lag for the witness. -/
def c2rel : Relationship := ⟨"P", "B", RelationshipType.FINISH_TO_START, 1⟩

/-- Activity with no predecessors whose parser-provided early start (day 5)
differs from its recorded start date (day 0). -/
def c7act : CpmActivity :=
  ⟨"A", 2, some 0, some 5, some 9, none, none, 0, false, [], []⟩

/-- Activity with no predecessors, no early dates yet, and recorded start
day 3, for the seeding witness. -/
def c7seed : CpmActivity :=
  ⟨"B", 4, some 3, none, none, none, none, 0, false, [], []⟩

/-- Baseline/current schedule with a half-day horizon: start day 0, finish
day 1/2. -/
def c9b : MSchedule := ⟨"P", "P", 0, 0, 1/2, []⟩

/-- Engine loaded with the half-day schedule on both sides. -/
def c9e : Engine := ⟨some c9b, some c9b⟩

/-- Schedule with a zero-length horizon, for which the comparison
succeeds. -/
def c5sched : MSchedule := ⟨"P", "P", 0, 0, 0, []⟩

/-- Engine loaded with the zero-horizon schedule on both sides. -/
def c5eng : Engine := ⟨some c5sched, some c5sched⟩

/-- Comparison result produced for `c5eng`. -/
def c5res : ComparisonResult :=
  ⟨c5sched, c5sched, [], [], [], [], [], [], 0, 1, 0⟩

/-- Delay event starting day 0 and ending day 10. -/
def c4w1 : DelayEvent := ⟨"W1", "w1", 6, DelayType.UNKNOWN, 0, some 10, "", "", 0, false, none, ""⟩

/-- Delay event starting day 5 and ending day 20, overlapping `c4w1`. -/
def c4w2 : DelayEvent := ⟨"W2", "w2", 6, DelayType.UNKNOWN, 5, some 20, "", "", 0, false, none, ""⟩

/-- Delay event starting day 0 and ending day 1. -/
def c4w3 : DelayEvent := ⟨"W3", "w3", 6, DelayType.UNKNOWN, 0, some 1, "", "", 0, false, none, ""⟩

/-- Delay event starting day 5 and ending day 6, disjoint from `c4w3`. -/
def c4w4 : DelayEvent := ⟨"W4", "w4", 6, DelayType.UNKNOWN, 5, some 6, "", "", 0, false, none, ""⟩

/-- Delay event at start 0 whose end date lies before its start. -/
def c4b : DelayEvent := ⟨"B", "b", 6, DelayType.UNKNOWN, 0, some (-1), "", "", 0, false, none, ""⟩

/-- Delay event at start 0 ending day 5. -/
def c4a : DelayEvent := ⟨"A", "a", 6, DelayType.UNKNOWN, 0, some 5, "", "", 0, false, none, ""⟩

instance : IsTotal DelayEvent delayLE :=
  ⟨fun a b => le_total a.start_date b.start_date⟩

instance : IsTrans DelayEvent delayLE :=
  ⟨fun _ _ _ hab hbc => le_trans hab hbc⟩

/-! Theorems. -/

/-- Identification of the executable `Rat.floor` with the mathematical
floor. -/
theorem tdDays_eq (x : ℚ) : tdDays x = ⌊x⌋ := by
  rw [tdDays, Rat.floor_def', Rat.floor_def]

/-- Identification of the executable fuel bound with the ceiling form. -/
theorem customFuel_eq (s e : ℚ) : customFuel s e = (⌈e - s⌉).toNat + 1 := by
  rw [customFuel, Rat.floor_def', ← Rat.floor_def,
    show e - s = -(s - e) by ring, Int.ceil_neg]

/-- Record-level description of the float/criticality loop body on an
activity carrying all four early/late dates. -/
theorem calcFloat_spec (a : CpmActivity) (es ls ef lf : ℚ)
    (hes : a.early_start = some es) (hls : a.late_start = some ls)
    (hef : a.early_finish = some ef) (hlf : a.late_finish = some lf) :
    calcFloat a =
      { a with
        total_float := min ((tdDays (ls - es) : ℤ) : ℚ) ((tdDays (lf - ef) : ℤ) : ℚ),
        is_critical := decide (((tdDays (ls - es) : ℤ) : ℚ) ≤ 0) } := by
  unfold calcFloat
  rw [hes, hls]
  dsimp only
  rw [hef, hlf]

/-- C1, amended: after the float loop of `_calculate_critical_path`, an
activity with all four early/late dates has total float
`min((late start − early start).days, (late finish − early finish).days)`,
which is at most `(late finish − early finish).days`; but `is_critical`
records `(late start − early start).days ≤ 0`, decided before the `min`
tightening, not the final total float. -/
theorem cpm_float_criticality (a : CpmActivity) (es ls ef lf : ℚ)
    (hes : a.early_start = some es) (hls : a.late_start = some ls)
    (hef : a.early_finish = some ef) (hlf : a.late_finish = some lf) :
    (calcFloat a).total_float = ((min (tdDays (ls - es)) (tdDays (lf - ef)) : ℤ) : ℚ)
    ∧ (calcFloat a).total_float ≤ ((tdDays (lf - ef) : ℤ) : ℚ)
    ∧ ((calcFloat a).is_critical = true ↔ tdDays (ls - es) ≤ 0) := by
  rw [calcFloat_spec a es ls ef lf hes hls hef hlf]
  refine ⟨by push_cast; ring_nf, min_le_right _ _, ?_⟩
  simp only [decide_eq_true_eq]
  exact_mod_cast Iff.rfl

/-- Witness for `cpm_float_criticality` at the concrete activity `c1Act`. -/
theorem cpm_float_criticality_witness :
    (calcFloat c1Act).total_float = ((min (tdDays ((1:ℚ) - 0)) (tdDays ((0:ℚ) - 5)) : ℤ) : ℚ)
    ∧ (calcFloat c1Act).total_float ≤ ((tdDays ((0:ℚ) - 5) : ℤ) : ℚ)
    ∧ ((calcFloat c1Act).is_critical = true ↔ tdDays ((1:ℚ) - 0) ≤ 0) :=
  cpm_float_criticality c1Act 0 1 5 0 rfl rfl rfl rfl

/-- Counterexample to C1 as stated: running the whole
`_calculate_critical_path` on the one-activity schedule `c1Act` leaves a
final total float of −5 (which is ≤ 0) while `is_critical` stays `false`,
so criticality is not equivalent to the resulting total float being ≤ 0. -/
theorem c1_counterexample :
    ((calculate_critical_path [c1Act] [] 2).map (fun x => (x.total_float, x.is_critical))
      = [(-5, false)])
    ∧ ¬ (false = true ↔ (-5 : ℚ) ≤ 0) := by
  constructor
  · have h1 : forwardPass [] [c1Act] 2 = [c1Act] := by with_unfolding_all decide
    have h2 : backwardPass [] [c1Act] 2 = [c1Act] := by with_unfolding_all decide
    have h3 : (List.map calcFloat [c1Act]).map (fun x => (x.total_float, x.is_critical))
        = [(-5, false)] := by with_unfolding_all decide
    rw [calculate_critical_path, h1, h2, h3]
  · intro h
    have h5 : (-5 : ℚ) ≤ 0 := by norm_num
    exact Bool.false_ne_true (h.mpr h5)

/-- Evaluation of `_calculate_activity_delay` when the current activity is
not completed and both planned finishes exist: the planned finishes are
compared regardless of in-progress versus not-started. -/
theorem delay_planned (b c : MActivity) (bf cf : ℚ)
    (hc : c.status ≠ ActivityStatus.COMPLETED)
    (hbf : b.finish_date = some bf) (hcf : c.finish_date = some cf) :
    calculate_activity_delay b c = ((tdDays (cf - bf) : ℤ) : ℚ) := by
  cases hst : c.status with
  | COMPLETED => exact absurd hst hc
  | IN_PROGRESS => simp [calculate_activity_delay, hst, hbf, hcf]
  | NOT_STARTED => simp [calculate_activity_delay, hst, hbf, hcf]

/-- C6, amended: swapping baseline and current negates the computed delay
provided neither activity is completed, both planned finish dates exist,
and the planned finishes differ by a whole number of days (the
status-dependent actual-versus-planned branches and the flooring of
`.days` break antisymmetry otherwise). -/
theorem activity_delay_antisymm (b c : MActivity) (bf cf : ℚ) (k : ℤ)
    (hb : b.status ≠ ActivityStatus.COMPLETED)
    (hc : c.status ≠ ActivityStatus.COMPLETED)
    (hbf : b.finish_date = some bf) (hcf : c.finish_date = some cf)
    (hk : cf - bf = (k : ℚ)) :
    calculate_activity_delay c b = - calculate_activity_delay b c := by
  rw [delay_planned b c bf cf hc hbf hcf, delay_planned c b cf bf hb hcf hbf]
  have hk2 : bf - cf = ((-k : ℤ) : ℚ) := by push_cast; linarith
  rw [hk, hk2, tdDays_eq, tdDays_eq, Int.floor_intCast, Int.floor_intCast]
  push_cast
  ring

/-- Witness for `activity_delay_antisymm`: two not-completed activities
with planned finishes 10 and 14. -/
theorem activity_delay_antisymm_witness :
    calculate_activity_delay
        { c6base with finish_date := some 14 } c6base
      = - calculate_activity_delay c6base { c6base with finish_date := some 14 } :=
  activity_delay_antisymm c6base { c6base with finish_date := some 14 } 10 14 4
    (by decide) (by decide) rfl rfl (by norm_num)

/-- Counterexample to C6 as stated: for the pair `(c6base, c6curr)` the
delay is +10 (actual finish 20 against baseline planned finish 10), while
the swapped call compares planned finishes through the not-started branch
and yields −8, not −10. -/
theorem c6_counterexample :
    calculate_activity_delay c6base c6curr = 10
    ∧ calculate_activity_delay c6curr c6base = -8
    ∧ ¬ ((-8 : ℚ) = -(10 : ℚ)) := by
  refine ⟨?_, ?_, by norm_num⟩
  · with_unfolding_all decide
  · with_unfolding_all decide

/-- Evaluation of one `succStep` in terms of the contributed start date. -/
theorem succStep_eq (m : List (String × MActivity)) (e : ℚ) (sid : String) :
    succStep m e sid =
      match (dictFind m sid).bind (fun s => s.start_date) with
      | some st => min e st
      | none => e := by
  unfold succStep
  cases h : dictFind m sid with
  | none => rfl
  | some s => cases hs : s.start_date <;> rfl

/-- Folding `succStep` is folding `min` over the contributed start dates. -/
theorem fold_succStep (m : List (String × MActivity)) :
    ∀ (l : List String) (e : ℚ),
      l.foldl (succStep m) e
        = (l.filterMap (fun sid => (dictFind m sid).bind (fun s => s.start_date))).foldl min e := by
  intro l
  induction l with
  | nil => intro e; rfl
  | cons sid t ih =>
    intro e
    rw [List.foldl_cons, List.filterMap_cons, succStep_eq]
    cases h : (dictFind m sid).bind (fun s => s.start_date) with
    | none => exact ih e
    | some st => rw [List.foldl_cons]; exact ih (min e st)

/-- Left fold of `min` never exceeds its seed. -/
theorem foldl_min_le_init : ∀ (l : List ℚ) (e : ℚ), l.foldl min e ≤ e := by
  intro l
  induction l with
  | nil => intro e; exact le_refl e
  | cons x t ih =>
    intro e
    exact le_trans (ih (min e x)) (min_le_left e x)

/-- Left fold of `min` is below every list member. -/
theorem foldl_min_le_mem : ∀ (l : List ℚ) (e x : ℚ), x ∈ l → l.foldl min e ≤ x := by
  intro l
  induction l with
  | nil => intro e x hx; cases hx
  | cons y t ih =>
    intro e x hx
    rcases List.mem_cons.mp hx with h | h
    · subst h
      exact le_trans (foldl_min_le_init t (min e x)) (min_le_right e x)
    · exact ih (min e y) x h

/-- Left fold of `min` is the seed or a member. -/
theorem foldl_min_eq_or : ∀ (l : List ℚ) (e : ℚ), l.foldl min e = e ∨ l.foldl min e ∈ l := by
  intro l
  induction l with
  | nil => intro e; exact Or.inl rfl
  | cons x t ih =>
    intro e
    rcases ih (min e x) with h | h
    · rcases min_cases e x with ⟨hm, _⟩ | ⟨hm, _⟩
      · exact Or.inl (by rw [List.foldl_cons, h, hm])
      · exact Or.inr (by rw [List.foldl_cons, h, hm]; exact List.mem_cons_self x t)
    · exact Or.inr (List.mem_cons_of_mem x h)

/-- C8, amended: with a finish date present, the successor-based total
float of `utils.py` measures to the project finish when there are no
successors, and otherwise to the minimum of the project finish and the
available successor start dates — the project finish clamps the successor
minimum, so the result is not always `earliest successor start − finish`. -/
theorem utils_total_float_char (activity : MActivity) (project_finish f : ℚ)
    (successors : List (String × MActivity)) (hf : activity.finish_date = some f) :
    (activity.successors = [] →
      utils_calculate_total_float activity project_finish successors
        = ((tdDays (project_finish - f) : ℤ) : ℚ))
    ∧ (activity.successors ≠ [] →
      utils_calculate_total_float activity project_finish successors
        = ((tdDays ((succStarts activity successors).foldl min project_finish - f) : ℤ) : ℚ)
      ∧ (succStarts activity successors).foldl min project_finish ≤ project_finish
      ∧ (∀ st ∈ succStarts activity successors,
          (succStarts activity successors).foldl min project_finish ≤ st)
      ∧ ((succStarts activity successors).foldl min project_finish = project_finish
          ∨ (succStarts activity successors).foldl min project_finish ∈ succStarts activity successors)) := by
  constructor
  · intro hs
    unfold utils_calculate_total_float
    rw [hf]
    simp [hs]
  · intro hs
    refine ⟨?_, foldl_min_le_init _ _, fun st hst => foldl_min_le_mem _ _ _ hst,
      foldl_min_eq_or _ _⟩
    unfold utils_calculate_total_float
    rw [hf]
    simp only [hs, if_false]
    rw [fold_succStep]
    rfl

/-- Witness for `utils_total_float_char` at the concrete activity `c8act`
against project finish 50. -/
theorem utils_total_float_char_witness :
    (c8act.successors = [] →
      utils_calculate_total_float c8act 50 [("S", c8succ)]
        = ((tdDays ((50:ℚ) - 40) : ℤ) : ℚ))
    ∧ (c8act.successors ≠ [] →
      utils_calculate_total_float c8act 50 [("S", c8succ)]
        = ((tdDays ((succStarts c8act [("S", c8succ)]).foldl min 50 - 40) : ℤ) : ℚ)
      ∧ (succStarts c8act [("S", c8succ)]).foldl min 50 ≤ 50
      ∧ (∀ st ∈ succStarts c8act [("S", c8succ)],
          (succStarts c8act [("S", c8succ)]).foldl min 50 ≤ st)
      ∧ ((succStarts c8act [("S", c8succ)]).foldl min 50 = 50
          ∨ (succStarts c8act [("S", c8succ)]).foldl min 50 ∈ succStarts c8act [("S", c8succ)])) :=
  utils_total_float_char c8act 50 40 [("S", c8succ)] rfl

/-- Counterexample to C8 as stated: `c8act` has a successor starting on
day 100, yet its float against project finish 50 is 10 days, not the
claimed `earliest successor start − finish = 60`. -/
theorem c8_counterexample :
    utils_calculate_total_float c8act 50 [("S", c8succ)] = 10
    ∧ (dictFind [("S", c8succ)] "S").bind (fun s => s.start_date) = some 100
    ∧ ((tdDays ((100 : ℚ) - 40) : ℤ) : ℚ) = 60
    ∧ (10 : ℚ) ≠ 60 := by
  refine ⟨by with_unfolding_all decide, rfl, by with_unfolding_all decide, by norm_num⟩

/-- Evaluation of one forward constraint-loop iteration in terms of the
relationship's contribution. -/
theorem fwdStep_eq (acts : List CpmActivity) (best : Option ℚ) (rel : Relationship) :
    fwdStep acts best rel =
      match fwdContrib acts rel with
      | none => best
      | some c =>
        match best with
        | none => some c
        | some m => if c > m then some c else some m := by
  unfold fwdStep fwdContrib
  cases h : lookupAct acts rel.predecessor_id with
  | none => rfl
  | some pred =>
    cases hc : calculate_constraint_date pred rel.relationship_type rel.lag true <;> rfl

/-- Running the forward constraint fold from a seeded accumulator yields
the maximum of the seed and all contributions. -/
theorem maxFold_from_some (acts : List CpmActivity) :
    ∀ (rs : List Relationship) (m : ℚ),
      ∃ d, rs.foldl (fwdStep acts) (some m) = some d
        ∧ (d = m ∨ d ∈ rs.filterMap (fwdContrib acts))
        ∧ m ≤ d
        ∧ ∀ c ∈ rs.filterMap (fwdContrib acts), c ≤ d := by
  intro rs
  induction rs with
  | nil => intro m; exact ⟨m, rfl, Or.inl rfl, le_refl m, by simp⟩
  | cons r rs ih =>
    intro m
    rw [List.foldl_cons, fwdStep_eq, List.filterMap_cons]
    cases hc : fwdContrib acts r with
    | none =>
      obtain ⟨d, h1, h2, h3, h4⟩ := ih m
      exact ⟨d, h1, h2, h3, h4⟩
    | some c =>
      by_cases hcm : c > m
      · simp only [hcm, if_pos]
        obtain ⟨d, h1, h2, h3, h4⟩ := ih c
        refine ⟨d, h1, Or.inr ?_, le_trans (le_of_lt hcm) h3, ?_⟩
        · rcases h2 with h | h
          · exact h ▸ List.mem_cons_self c _
          · exact List.mem_cons_of_mem c h
        · intro x hx
          rcases List.mem_cons.mp hx with h | h
          · exact h ▸ h3
          · exact h4 x h
      · simp only [hcm, if_neg, if_false]
        obtain ⟨d, h1, h2, h3, h4⟩ := ih m
        refine ⟨d, h1, ?_, h3, ?_⟩
        · rcases h2 with h | h
          · exact Or.inl h
          · exact Or.inr (List.mem_cons_of_mem c h)
        · intro x hx
          rcases List.mem_cons.mp hx with h | h
          · exact h ▸ le_trans (le_of_not_lt hcm) h3
          · exact h4 x h

/-- When at least one relationship contributes, the forward constraint
fold returns the maximum contribution. -/
theorem maxConstraint_spec (acts : List CpmActivity) :
    ∀ rs : List Relationship, rs.filterMap (fwdContrib acts) ≠ [] →
      ∃ d, maxConstraint acts rs = some d
        ∧ d ∈ rs.filterMap (fwdContrib acts)
        ∧ ∀ c ∈ rs.filterMap (fwdContrib acts), c ≤ d := by
  intro rs
  induction rs with
  | nil => intro h; exact absurd rfl h
  | cons r rs ih =>
    intro hne
    unfold maxConstraint at *
    rw [List.foldl_cons, fwdStep_eq, List.filterMap_cons] at *
    cases hc : fwdContrib acts r with
    | none =>
      have hne2 : rs.filterMap (fwdContrib acts) ≠ [] := by
        rw [hc] at hne
        exact hne
      obtain ⟨d, h1, h2, h3⟩ := ih hne2
      exact ⟨d, h1, h2, h3⟩
    | some c =>
      obtain ⟨d, h1, h2, h3, h4⟩ := maxFold_from_some acts rs c
      refine ⟨d, h1, ?_, ?_⟩
      · rcases h2 with h | h
        · exact h ▸ List.mem_cons_self c _
        · exact List.mem_cons_of_mem c h
      · intro x hx
        rcases List.mem_cons.mp hx with h | h
        · exact h ▸ h3
        · exact h4 x h

/-- Lookup after mapping an id-preserving function. -/
theorem lookupAct_map (g : CpmActivity → CpmActivity)
    (hg : ∀ x, (g x).activity_id = x.activity_id) :
    ∀ (acts : List CpmActivity) (aid : String),
      lookupAct (acts.map g) aid = (lookupAct acts aid).map g := by
  intro acts aid
  induction acts with
  | nil => rfl
  | cons a t ih =>
    unfold lookupAct at *
    rw [List.map_cons, List.find?_cons, List.find?_cons, hg a]
    cases h : (a.activity_id == aid) with
    | true => rfl
    | false => exact ih

/-- C2: when at least one incoming relationship has a predecessor record
with the early date its type needs, the forward update assigns the maximal
per-type constraint date as early start, and early finish becomes that
date plus the activity's duration; the per-type table coincides with the
spec's (FS/FF from predecessor early finish plus lag, SS/SF from
predecessor early start plus lag), and relationships with a missing
predecessor or missing date are exactly the ones contributing nothing. -/
theorem forward_pass_constraints (rels : List Relationship) (acts : List CpmActivity)
    (aid : String) (a : CpmActivity) (ha : lookupAct acts aid = some a)
    (hne : fwdContributions rels acts aid ≠ []) :
    ∃ d, maxConstraint acts (relsFor rels aid) = some d
      ∧ d ∈ fwdContributions rels acts aid
      ∧ (∀ c ∈ fwdContributions rels acts aid, c ≤ d)
      ∧ lookupAct (applyFwdUpdate rels acts aid) aid
          = some { a with early_start := some d, early_finish := some (d + a.duration) }
      ∧ (∀ pred rel_type lag,
          calculate_constraint_date pred rel_type lag true
            = specForwardConstraint pred rel_type lag) := by
  obtain ⟨d, hmax, hmem, hub⟩ := maxConstraint_spec acts (relsFor rels aid) hne
  have hid : ∀ b : CpmActivity,
      ((fun b => if b.activity_id == aid then
        { b with early_start := some d, early_finish := some (d + b.duration) }
        else b) b).activity_id = b.activity_id := by
    intro b
    by_cases h : b.activity_id == aid <;> simp [h]
  refine ⟨d, hmax, hmem, hub, ?_, ?_⟩
  · have hmyne : relsFor rels aid ≠ [] := by
      intro h
      apply hne
      unfold fwdContributions
      rw [h]
      rfl
    unfold applyFwdUpdate
    simp only [hmyne, if_neg, if_false]
    rw [hmax]
    rw [lookupAct_map _ hid acts aid, ha]
    have ha2 : acts.find? (fun b => b.activity_id == aid) = some a := ha
    have hpa := List.find?_some ha2
    simp [Option.map, hpa]
  · intro pred rel_type lag
    cases rel_type <;>
      cases hef : pred.early_finish <;>
      cases hes : pred.early_start <;>
        simp [calculate_constraint_date, specForwardConstraint, hef, hes, sub_zero]

/-- Witness for `forward_pass_constraints` on the two-activity schedule. -/
theorem forward_pass_constraints_witness :
    ∃ d, maxConstraint [c2pred, c2succ] (relsFor [c2rel] "B") = some d
      ∧ d ∈ fwdContributions [c2rel] [c2pred, c2succ] "B"
      ∧ (∀ c ∈ fwdContributions [c2rel] [c2pred, c2succ] "B", c ≤ d)
      ∧ lookupAct (applyFwdUpdate [c2rel] [c2pred, c2succ] "B") "B"
          = some { c2succ with early_start := some d, early_finish := some (d + c2succ.duration) }
      ∧ (∀ pred rel_type lag,
          calculate_constraint_date pred rel_type lag true
            = specForwardConstraint pred rel_type lag) :=
  forward_pass_constraints [c2rel] [c2pred, c2succ] "B" c2succ
    (by with_unfolding_all decide) (by with_unfolding_all decide)

/-- Folding a step that preserves an observation preserves it overall. -/
theorem foldl_eq_inv {σ β γ : Type _} (g : σ → γ) (step : σ → β → σ)
    (h : ∀ s b, g (step s b) = g s) :
    ∀ (l : List β) (s : σ), g (l.foldl step s) = g s := by
  intro l
  induction l with
  | nil => intro s; rfl
  | cons b t ih => intro s; rw [List.foldl_cons, ih, h]

/-- Seeding preserves the activity id. -/
theorem seedStart_id (a : CpmActivity) : (seedStart a).activity_id = a.activity_id := by
  unfold seedStart
  dsimp only
  repeat' split
  all_goals rfl

/-- Lookup of a different id is unchanged by the targeted early-date map
update. -/
theorem lookup_map_update_ne (aid x : String) (d : ℚ) (hax : ¬ aid = x) :
    ∀ acts : List CpmActivity,
      lookupAct (acts.map (fun b =>
        if b.activity_id == aid then
          { b with early_start := some d, early_finish := some (d + b.duration) }
        else b)) x = lookupAct acts x := by
  intro acts
  have hid : ∀ b : CpmActivity,
      ((fun b => if b.activity_id == aid then
        { b with early_start := some d, early_finish := some (d + b.duration) }
        else b) b).activity_id = b.activity_id := by
    intro b
    by_cases h : (b.activity_id == aid) = true <;> simp [h]
  rw [lookupAct_map _ hid acts x]
  cases h : lookupAct acts x with
  | none => rfl
  | some b =>
    have hb : acts.find? (fun v => v.activity_id == x) = some b := h
    have hpb := List.find?_some hb
    have hbid : b.activity_id = x := eq_of_beq hpb
    have hba : (b.activity_id == aid) = false := by
      rw [hbid]
      exact beq_eq_false_iff_ne.mpr (fun hh => hax hh.symm)
    simp [Option.map, hba]

/-- The forward early-date update never touches an activity that has no
incoming relationships. -/
theorem applyFwdUpdate_preserve (rels : List Relationship) (acts : List CpmActivity)
    (aid x : String) (hx : relsFor rels x = []) :
    lookupAct (applyFwdUpdate rels acts aid) x = lookupAct acts x := by
  unfold applyFwdUpdate
  by_cases hmy : relsFor rels aid = []
  · simp [hmy]
  · simp only [hmy, if_neg, if_false]
    cases hm : maxConstraint acts (relsFor rels aid) with
    | none => rfl
    | some d =>
      dsimp only
      exact lookup_map_update_ne aid x d (fun h => hmy (h ▸ hx)) acts

/-- The forward `visit` recursion never touches an activity that has no
incoming relationships. -/
theorem visitFwd_preserve (rels : List Relationship) (x : String)
    (hx : relsFor rels x = []) :
    ∀ (f : ℕ) (st : List CpmActivity × List String) (aid : String),
      lookupAct (visitFwd rels f st aid).1 x = lookupAct st.1 x := by
  intro f
  induction f with
  | zero => intro st aid; rfl
  | succ f ih =>
    intro st aid
    rw [visitFwd]
    by_cases hv : aid ∈ st.2
    · simp [hv]
    · simp only [hv, if_neg, if_false]
      cases hla : lookupAct st.1 aid with
      | none => rfl
      | some a =>
        dsimp only
        rw [applyFwdUpdate_preserve rels _ aid x hx]
        exact foldl_eq_inv (fun s => lookupAct s.1 x)
          (fun s pid => if (lookupAct s.1 pid).isSome then visitFwd rels f s pid else s)
          (by
            intro s pid
            by_cases hp : (lookupAct s.1 pid).isSome
            · simp only [hp, if_true]
              exact ih s pid
            · simp [hp])
          a.predecessors st

/-- An activity with no incoming relationship entries comes out of the
whole forward pass exactly as shaped by the seeding step. -/
theorem forwardPass_lookup (rels : List Relationship) (acts : List CpmActivity)
    (fuel : ℕ) (x : String) (a : CpmActivity)
    (hx : relsFor rels x = []) (ha : lookupAct acts x = some a) :
    lookupAct (forwardPass rels acts fuel) x = some (seedStart a) := by
  unfold forwardPass
  rw [foldl_eq_inv (fun st => lookupAct st.1 x)
    (fun st b => visitFwd rels fuel st b.activity_id)
    (fun st b => visitFwd_preserve rels x hx fuel st b.activity_id) acts _]
  rw [lookupAct_map seedStart seedStart_id acts x, ha]
  rfl

/-- C7, amended: after the forward pass, an activity with no predecessors
and no incoming relationship entries is exactly its seeded version: a
pre-set early start is left unchanged (not overwritten by the recorded
start); an unset early start is filled from the recorded start date, and an
unset early finish then becomes early start plus duration; and when no
recorded start exists the early dates simply stay unset — there is no
fallback to the current time. -/
theorem forward_pass_seeding (rels : List Relationship) (acts : List CpmActivity)
    (fuel : ℕ) (a : CpmActivity)
    (ha : lookupAct acts a.activity_id = some a)
    (hpred : a.predecessors = [])
    (hrel : relsFor rels a.activity_id = []) :
    lookupAct (forwardPass rels acts fuel) a.activity_id = some (seedStart a)
    ∧ (∀ s : ℚ, a.early_start = none → a.start_date = some s →
        (seedStart a).early_start = some s
        ∧ (seedStart a).early_finish
            = (if a.early_finish = none then some (s + a.duration) else a.early_finish))
    ∧ (∀ es : ℚ, a.early_start = some es →
        (seedStart a).early_start = some es)
    ∧ (a.early_start = none → a.start_date = none →
        (seedStart a).early_start = none ∧ (seedStart a).early_finish = a.early_finish) := by
  refine ⟨forwardPass_lookup rels acts fuel a.activity_id a hrel ha, ?_, ?_, ?_⟩
  · intro s h1 h2
    unfold seedStart
    by_cases hef : a.early_finish = none
    · simp [hpred, h1, h2, hef]
    · simp [hpred, h1, h2, hef]
  · intro es h1
    unfold seedStart
    by_cases hef : a.early_finish = none
    · simp [hpred, h1, hef]
    · simp [hpred, h1, hef]
  · intro h1 h2
    unfold seedStart
    by_cases hef : a.early_finish = none
    · simp [hpred, h1, h2, hef]
    · simp [hpred, h1, h2, hef]

/-- Witness for `forward_pass_seeding` on the singleton schedule holding
`c7seed`. -/
theorem forward_pass_seeding_witness :
    lookupAct (forwardPass [] [c7seed] 2) c7seed.activity_id = some (seedStart c7seed)
    ∧ (∀ s : ℚ, c7seed.early_start = none → c7seed.start_date = some s →
        (seedStart c7seed).early_start = some s
        ∧ (seedStart c7seed).early_finish
            = (if c7seed.early_finish = none then some (s + c7seed.duration) else c7seed.early_finish))
    ∧ (∀ es : ℚ, c7seed.early_start = some es →
        (seedStart c7seed).early_start = some es)
    ∧ (c7seed.early_start = none → c7seed.start_date = none →
        (seedStart c7seed).early_start = none ∧ (seedStart c7seed).early_finish = c7seed.early_finish) :=
  forward_pass_seeding [] [c7seed] 2 c7seed rfl rfl rfl

/-- Counterexample to C7 as stated: `c7act` has no predecessors and a
recorded start on day 0, yet after the forward pass its early start is the
pre-existing day 5, not the recorded start. -/
theorem c7_counterexample :
    (forwardPass [] [c7act] 2).map (fun v => v.early_start) = [some 5]
    ∧ c7act.start_date = some 0
    ∧ ¬ (some (5 : ℚ) = some (0 : ℚ)) := by
  refine ⟨by with_unfolding_all decide, rfl, by simp⟩

/-- Error analysis of `_calculate_completion_variance`: it raises exactly
when the baseline horizon is positive but shorter than one whole day (the
`ZeroDivisionError` of `elapsed_days / total_project_days`), and the error
is never the missing-schedule one. -/
theorem completion_variance_cases (b c : MSchedule) :
    (calculate_completion_variance b c = .error CompareError.zeroDivision ↔
      (b.start_date < b.finish_date ∧ tdDays (b.finish_date - b.start_date) = 0))
    ∧ (¬ (b.start_date < b.finish_date ∧ tdDays (b.finish_date - b.start_date) = 0) →
        ∃ v, calculate_completion_variance b c = .ok v)
    ∧ calculate_completion_variance b c ≠ .error CompareError.notLoaded := by
  unfold calculate_completion_variance
  by_cases h1 : b.finish_date ≤ b.start_date
  · rw [if_pos h1]
    exact ⟨⟨fun h => Except.noConfusion h, fun hx => absurd hx.1 (not_lt.mpr h1)⟩,
      fun _ => ⟨0, rfl⟩, fun h => Except.noConfusion h⟩
  · have hlt : b.start_date < b.finish_date := not_le.mp h1
    rw [if_neg h1]
    dsimp only
    by_cases h2 : tdDays (b.finish_date - b.start_date) = 0
    · rw [if_pos h2]
      exact ⟨⟨fun _ => ⟨hlt, h2⟩, fun _ => rfl⟩,
        fun hn => absurd ⟨hlt, h2⟩ hn,
        fun h => CompareError.noConfusion (Except.error.inj h)⟩
    · rw [if_neg h2]
      exact ⟨⟨fun h => Except.noConfusion h, fun hx => absurd hx.2 h2⟩,
        fun _ => ⟨_, rfl⟩, fun h => Except.noConfusion h⟩

/-- C9, amended: `compare_schedules` fails with the missing-schedule
`ValueError` exactly when a schedule slot is unloaded (checked before any
comparison work); with both loaded it returns a `ComparisonResult` unless
the baseline horizon is positive yet shorter than one whole day, in which
case the completion-variance division raises `ZeroDivisionError`. -/
theorem compare_schedules_error_char (e : Engine) :
    (compare_schedules e = .error CompareError.notLoaded ↔
      (e.baseline_schedule = none ∨ e.current_schedule = none))
    ∧ (∀ b c, e.baseline_schedule = some b → e.current_schedule = some c →
        ((compare_schedules e = .error CompareError.zeroDivision) ↔
          (b.start_date < b.finish_date ∧ tdDays (b.finish_date - b.start_date) = 0))
        ∧ (¬ (b.start_date < b.finish_date ∧ tdDays (b.finish_date - b.start_date) = 0) →
            ∃ r, compare_schedules e = .ok (r, e))) := by
  obtain ⟨ob, oc⟩ := e
  cases ob with
  | none =>
    refine ⟨⟨fun _ => Or.inl rfl, fun _ => ?_⟩, fun b c hb _ => Option.noConfusion hb⟩
    cases oc <;> rfl
  | some b =>
    cases oc with
    | none => exact ⟨⟨fun _ => Or.inr rfl, fun _ => rfl⟩,
        fun b2 c hb hc => Option.noConfusion hc⟩
    | some c =>
      obtain ⟨hiff, hok, hnl⟩ := completion_variance_cases b c
      constructor
      · constructor
        · intro h
          unfold compare_schedules at h
          dsimp only at h
          cases hv : calculate_completion_variance b c with
          | error err =>
            rw [hv] at h
            dsimp only at h
            rw [Except.error.inj h] at hv
            exact absurd hv hnl
          | ok cv =>
            rw [hv] at h
            exact Except.noConfusion h
        · intro h
          rcases h with h | h <;> exact Option.noConfusion h
      · intro b2 c2 hb hc
        have hb2 : b2 = b := (Option.some.inj hb).symm
        rw [hb2]
        constructor
        · constructor
          · intro h
            unfold compare_schedules at h
            dsimp only at h
            cases hv : calculate_completion_variance b c with
            | error err =>
              rw [hv] at h
              dsimp only at h
              rw [Except.error.inj h] at hv
              exact hiff.mp hv
            | ok cv =>
              rw [hv] at h
              exact Except.noConfusion h
          · intro h
            obtain hv := hiff.mpr h
            unfold compare_schedules
            dsimp only
            rw [hv]
        · intro hn
          obtain ⟨v, hv⟩ := hok hn
          exact ⟨_, by unfold compare_schedules; dsimp only; rw [hv]⟩

/-- C5: `compare_schedules` leaves the engine state (and hence both loaded
schedules) untouched, and a second run returns the very same
`ComparisonResult` contents. -/
theorem compare_schedules_idempotent (e : Engine) (r : ComparisonResult) (e1 : Engine)
    (h : compare_schedules e = .ok (r, e1)) :
    e1 = e ∧ compare_schedules e1 = .ok (r, e1) := by
  obtain ⟨ob, oc⟩ := e
  cases ob with
  | none =>
    unfold compare_schedules at h
    cases oc <;> exact Except.noConfusion h
  | some b =>
    cases oc with
    | none =>
      unfold compare_schedules at h
      exact Except.noConfusion h
    | some c =>
      unfold compare_schedules at h
      dsimp only at h
      cases hv : calculate_completion_variance b c with
      | error err =>
        rw [hv] at h
        exact Except.noConfusion h
      | ok cv =>
        rw [hv] at h
        dsimp only at h
        have h3 := Except.ok.inj h
        have he : (⟨some b, some c⟩ : Engine) = e1 := congrArg Prod.snd h3
        have hr := congrArg Prod.fst h3
        subst he
        subst hr
        refine ⟨rfl, ?_⟩
        unfold compare_schedules
        dsimp only
        rw [hv]

/-- Witness for `compare_schedules_idempotent` on the concrete engine
`c5eng`. -/
theorem compare_schedules_idempotent_witness :
    c5eng = c5eng ∧ compare_schedules c5eng = .ok (c5res, c5eng) :=
  compare_schedules_idempotent c5eng c5res c5eng (by with_unfolding_all rfl)

/-- Witness for `compare_schedules_error_char`: the inner implications
discharged at the half-day engine `c9e` and the zero-horizon engine
`c5eng`. -/
theorem compare_schedules_error_char_witness :
    ((compare_schedules c9e = .error CompareError.zeroDivision) ↔
      (c9b.start_date < c9b.finish_date ∧ tdDays (c9b.finish_date - c9b.start_date) = 0))
    ∧ (∃ r, compare_schedules c5eng = .ok (r, c5eng)) :=
  ⟨((compare_schedules_error_char c9e).2 c9b c9b rfl rfl).1,
   ((compare_schedules_error_char c5eng).2 c5sched c5sched rfl rfl).2
     (fun h => absurd h.1 (lt_irrefl 0))⟩

/-- Counterexample to C9 as stated: both schedules are loaded in `c9e`,
yet `compare_schedules` raises (`ZeroDivisionError` from the
completion-variance step) instead of returning a result. -/
theorem c9_counterexample :
    c9e.baseline_schedule ≠ none ∧ c9e.current_schedule ≠ none
    ∧ compare_schedules c9e = .error CompareError.zeroDivision := by
  refine ⟨fun h => Option.noConfusion h, fun h => Option.noConfusion h, ?_⟩
  with_unfolding_all rfl

/-- The stable sort is a permutation of the input. -/
theorem sortByStart_perm (evs : List DelayEvent) : List.Perm (sortByStart evs) evs :=
  List.perm_insertionSort delayLE evs

/-- The stable sort is sorted by start date. -/
theorem sortByStart_sorted (evs : List DelayEvent) :
    List.Sorted delayLE (sortByStart evs) :=
  List.sorted_insertionSort delayLE evs

/-- Clearing the flag commutes with the conditional flagging. -/
theorem clearFlag_if (c : Bool) (e : DelayEvent) :
    clearFlag (if c then { e with is_concurrent := true } else e) = clearFlag e := by
  cases c <;> rfl

/-- The overlap test only reads the first event's end date and the second
event's start date. -/
theorem overlapCheck_congr (d1 d1' d2 d2' : DelayEvent)
    (h1 : d1.end_date = d1'.end_date) (h2 : d2.start_date = d2'.start_date) :
    overlapCheck d1 d2 = overlapCheck d1' d2' := by
  unfold overlapCheck
  rw [h1, h2]

/-- Fields of events agreeing up to the flag. -/
theorem clearFlag_fields (x y : DelayEvent) (h : clearFlag x = clearFlag y) :
    x.start_date = y.start_date ∧ x.end_date = y.end_date := by
  have h1 := congrArg DelayEvent.start_date h
  have h2 := congrArg DelayEvent.end_date h
  exact ⟨h1, h2⟩

/-- Membership description of the flagging pass: the elements of
`flagPass pre l` are exactly the elements of `l`, flagged when some event
before them (in `pre` or earlier in `l`) overlaps them or they overlap
some later event. -/
theorem flagPass_mem :
    ∀ (l pre : List DelayEvent) (x : DelayEvent),
      x ∈ flagPass pre l ↔ ∃ l1 e l2, l = l1 ++ e :: l2 ∧
        x = (if (pre ++ l1).any (fun d => overlapCheck d e) || l2.any (fun d => overlapCheck e d)
             then { e with is_concurrent := true } else e) := by
  intro l
  induction l with
  | nil =>
    intro pre x
    constructor
    · intro hx; cases hx
    · intro ⟨l1, e, l2, hsplit, _⟩
      exact absurd hsplit (List.append_ne_nil_of_right_ne_nil l1 (List.cons_ne_nil e l2)).symm
  | cons e0 rest ih =>
    intro pre x
    rw [flagPass]
    constructor
    · intro hx
      rcases List.mem_cons.mp hx with h | h
      · refine ⟨[], e0, rest, rfl, ?_⟩
        rw [List.append_nil]
        exact h
      · obtain ⟨l1, e, l2, hsplit, hxe⟩ := (ih (pre ++ [e0]) x).mp h
        refine ⟨e0 :: l1, e, l2, by rw [hsplit]; rfl, ?_⟩
        rw [hxe, List.append_assoc, List.singleton_append]
    · intro ⟨l1, e, l2, hsplit, hxe⟩
      cases l1 with
      | nil =>
        rw [List.nil_append] at hsplit
        injection hsplit with he hr
        subst he
        subst hr
        rw [hxe, List.append_nil]
        exact List.mem_cons_self _ _
      | cons y l1' =>
        rw [List.cons_append] at hsplit
        injection hsplit with hy hr
        subst hy
        apply List.mem_cons_of_mem
        apply (ih (pre ++ [e0]) x).mpr
        refine ⟨l1', e, l2, hr, ?_⟩
        rw [hxe, List.append_assoc, List.singleton_append]

/-- If nothing overlaps, the flagging pass is the identity. -/
theorem flagPass_id :
    ∀ (l pre : List DelayEvent),
      (∀ d ∈ pre, ∀ e ∈ l, overlapCheck d e = false) →
      List.Pairwise (fun d1 d2 => overlapCheck d1 d2 = false) l →
      flagPass pre l = l := by
  intro l
  induction l with
  | nil => intro pre _ _; rfl
  | cons e rest ih =>
    intro pre hpre hpw
    obtain ⟨hhead, htail⟩ := List.pairwise_cons.mp hpw
    have hc : (pre.any (fun d => overlapCheck d e) || rest.any (fun d => overlapCheck e d)) = false := by
      rw [Bool.or_eq_false_iff]
      constructor
      · rw [List.any_eq_false]
        intro d hd hcontra
        rw [hpre d hd e (List.mem_cons_self e rest)] at hcontra
        exact Bool.false_ne_true hcontra
      · rw [List.any_eq_false]
        intro d hd hcontra
        rw [hhead d hd] at hcontra
        exact Bool.false_ne_true hcontra
    rw [flagPass, if_neg (by rw [hc]; exact Bool.false_ne_true)]
    have hrec : flagPass (pre ++ [e]) rest = rest := by
      apply ih
      · intro d hd y hy
        rcases List.mem_append.mp hd with h | h
        · exact hpre d h y (List.mem_cons_of_mem e hy)
        · rw [List.mem_singleton.mp h]
          exact hhead y hy
      · exact htail
    rw [hrec]

/-- Start-date bounds from a sorted split. -/
theorem sorted_split_bounds (s l1 l2 : List DelayEvent) (e : DelayEvent)
    (hs : List.Sorted delayLE s) (hsplit : s = l1 ++ e :: l2) :
    (∀ d ∈ l1, d.start_date ≤ e.start_date)
    ∧ (∀ d ∈ l2, e.start_date ≤ d.start_date) := by
  have hpw : List.Pairwise delayLE (l1 ++ e :: l2) := hsplit ▸ hs
  obtain ⟨_, pw2, hcross⟩ := List.pairwise_append.mp hpw
  obtain ⟨hhead, _⟩ := List.pairwise_cons.mp pw2
  exact ⟨fun d hd => hcross d hd e (List.mem_cons_self e l2), fun d hd => hhead d hd⟩

/-- C4, amended: after `identify_concurrent_delays`, any two events with
strictly ordered start dates whose earlier event's end reaches the later
start both end flagged (with tied starts the check is applied only in the
stable sort order, so a tied pair can escape flagging); and when no
ordered pair overlaps in the inclusive sense, no flag is set at all. -/
theorem concurrent_flagging (evs : List DelayEvent) :
    (∀ a b, a ∈ evs → b ∈ evs → a.start_date < b.start_date → overlapCheck a b = true →
      ({ a with is_concurrent := true } ∈ identify_concurrent_delays evs)
      ∧ ({ b with is_concurrent := true } ∈ identify_concurrent_delays evs)
      ∧ (∀ x ∈ identify_concurrent_delays evs,
          (clearFlag x = clearFlag a ∨ clearFlag x = clearFlag b) → x.is_concurrent = true))
    ∧ (List.Pairwise (fun d1 d2 =>
        (d1.start_date ≤ d2.start_date → overlapCheck d1 d2 = false)
        ∧ (d2.start_date ≤ d1.start_date → overlapCheck d2 d1 = false)) evs →
      identify_concurrent_delays evs = sortByStart evs) := by
  constructor
  · intro a b ha hb hlt hov
    have hperm := sortByStart_perm evs
    have hsorted := sortByStart_sorted evs
    have ha' : a ∈ sortByStart evs := hperm.mem_iff.mpr ha
    have hb' : b ∈ sortByStart evs := hperm.mem_iff.mpr hb
    refine ⟨?_, ?_, ?_⟩
    · obtain ⟨l1, l2, hsplit⟩ := List.append_of_mem ha'
      obtain ⟨hub, hlb⟩ := sorted_split_bounds _ l1 l2 a hsorted hsplit
      have hbpos : b ∈ l2 := by
        rw [hsplit] at hb'
        rcases List.mem_append.mp hb' with h | h
        · exact absurd (hub b h) (not_le.mpr hlt)
        · rcases List.mem_cons.mp h with h | h
          · rw [h] at hlt
            exact absurd hlt (lt_irrefl _)
          · exact h
      have hany : l2.any (fun d => overlapCheck a d) = true :=
        List.any_eq_true.mpr ⟨b, hbpos, hov⟩
      unfold identify_concurrent_delays
      apply (flagPass_mem (sortByStart evs) [] _).mpr
      refine ⟨l1, a, l2, hsplit, ?_⟩
      rw [hany, Bool.or_true, if_pos rfl]
    · obtain ⟨l1, l2, hsplit⟩ := List.append_of_mem hb'
      obtain ⟨hub, hlb⟩ := sorted_split_bounds _ l1 l2 b hsorted hsplit
      have hapos : a ∈ l1 := by
        rw [hsplit] at ha'
        rcases List.mem_append.mp ha' with h | h
        · exact h
        · rcases List.mem_cons.mp h with h | h
          · rw [h] at hlt
            exact absurd hlt (lt_irrefl _)
          · exact absurd (hlb a h) (not_le.mpr hlt)
      have hany : (([] : List DelayEvent) ++ l1).any (fun d => overlapCheck d b) = true := by
        rw [List.nil_append]
        exact List.any_eq_true.mpr ⟨a, hapos, hov⟩
      unfold identify_concurrent_delays
      apply (flagPass_mem (sortByStart evs) [] _).mpr
      refine ⟨l1, b, l2, hsplit, ?_⟩
      rw [hany, Bool.true_or, if_pos rfl]
    · intro x hx hmatch
      unfold identify_concurrent_delays at hx
      obtain ⟨m1, e, m2, hsp, hxe⟩ := (flagPass_mem (sortByStart evs) [] x).mp hx
      obtain ⟨hub, hlb⟩ := sorted_split_bounds _ m1 m2 e hsorted hsp
      have hcx : clearFlag x = clearFlag e := by
        rw [hxe]
        exact clearFlag_if _ e
      rcases hmatch with hma | hmb
      · obtain ⟨hst, hed⟩ := clearFlag_fields e a (hcx.symm.trans hma)
        have hbpos : b ∈ m2 := by
          rw [hsp] at hb'
          rcases List.mem_append.mp hb' with h | h
          · have := hub b h
            rw [hst] at this
            exact absurd this (not_le.mpr hlt)
          · rcases List.mem_cons.mp h with h | h
            · rw [h, hst] at hlt
              exact absurd hlt (lt_irrefl _)
            · exact h
        have hany : m2.any (fun d => overlapCheck e d) = true :=
          List.any_eq_true.mpr ⟨b, hbpos, by rw [overlapCheck_congr e a b b hed rfl]; exact hov⟩
        rw [hxe, hany, Bool.or_true, if_pos rfl]
      · obtain ⟨hst, hed⟩ := clearFlag_fields e b (hcx.symm.trans hmb)
        have hapos : a ∈ m1 := by
          rw [hsp] at ha'
          rcases List.mem_append.mp ha' with h | h
          · exact h
          · rcases List.mem_cons.mp h with h | h
            · rw [h, hst] at hlt
              exact absurd hlt (lt_irrefl _)
            · have := hlb a h
              rw [hst] at this
              exact absurd this (not_le.mpr hlt)
        have hany : (([] : List DelayEvent) ++ m1).any (fun d => overlapCheck d e) = true := by
          rw [List.nil_append]
          exact List.any_eq_true.mpr ⟨a, hapos, by rw [overlapCheck_congr a a e b rfl hst]; exact hov⟩
        rw [hxe, hany, Bool.true_or, if_pos rfl]
  · intro hpw
    have hperm := sortByStart_perm evs
    have hpw_s := (hperm.pairwise_iff (fun huv => ⟨huv.2, huv.1⟩)).mpr hpw
    have hsorted := sortByStart_sorted evs
    have hfwd : List.Pairwise (fun d1 d2 => overlapCheck d1 d2 = false) (sortByStart evs) := by
      have hand := List.Pairwise.and hsorted hpw_s
      exact hand.imp (fun hab => hab.2.1 hab.1)
    unfold identify_concurrent_delays
    exact flagPass_id (sortByStart evs) [] (fun d hd => absurd hd (List.not_mem_nil d)) hfwd

/-- Witness for `concurrent_flagging`: the overlapping pair gets flagged,
and the disjoint pair is returned untouched. -/
theorem concurrent_flagging_witness :
    ({ c4w1 with is_concurrent := true } ∈ identify_concurrent_delays [c4w1, c4w2])
    ∧ identify_concurrent_delays [c4w3, c4w4] = sortByStart [c4w3, c4w4] :=
  ⟨((concurrent_flagging [c4w1, c4w2]).1 c4w1 c4w2 (by decide) (by decide)
      (by decide) (by decide)).1,
   (concurrent_flagging [c4w3, c4w4]).2 (by decide)⟩

/-- Counterexample to C4 as stated: in `[c4b, c4a]` the events overlap per
the claim (`c4a`, starting no later than `c4b`, has its end on or after
`c4b`'s start), yet the pass flags neither, because the stable sort keeps
`c4b` first and only checks `c4b`'s end against `c4a`'s start. -/
theorem c4_counterexample :
    c4a.start_date ≤ c4b.start_date
    ∧ overlapCheck c4a c4b = true
    ∧ identify_concurrent_delays [c4b, c4a] = [c4b, c4a]
    ∧ c4b.is_concurrent = false ∧ c4a.is_concurrent = false := by
  refine ⟨by decide, by decide, by with_unfolding_all decide, rfl, rfl⟩

/-- The executable `Rat.floor` agrees with `Int.floor`. -/
theorem ratFloor_eq (x : ℚ) : x.floor = ⌊x⌋ := tdDays_eq x

/-- Once the cursor has reached the end date, the window loop stops. -/
theorem customAux_nil (endTs : ℚ) (p : ℤ) (cur : ℚ) (h : ¬ cur < endTs) :
    ∀ f, createCustomWindowsAux endTs p f cur = [] := by
  intro f
  cases f with
  | zero => rfl
  | succ f => rw [createCustomWindowsAux, if_neg h]

/-- With a positive period, one more unit of fuel beyond the day count of
the remaining horizon changes nothing. -/
theorem custom_step_stable (endTs : ℚ) (p : ℤ) (hp : 1 ≤ p) :
    ∀ (f : ℕ) (cur : ℚ), (-(cur - endTs).floor).toNat ≤ f →
      createCustomWindowsAux endTs p f cur = createCustomWindowsAux endTs p (f + 1) cur := by
  intro f
  induction f with
  | zero =>
    intro cur h0
    have hfl : (0 : ℤ) ≤ ⌊cur - endTs⌋ := by
      rw [ratFloor_eq] at h0
      omega
    have hle : endTs ≤ cur := by
      have := (Int.le_floor.mp hfl)
      push_cast at this
      linarith
    rw [customAux_nil endTs p cur (not_lt.mpr hle) 0,
      customAux_nil endTs p cur (not_lt.mpr hle) 1]
  | succ f ih =>
    intro cur hb
    by_cases hc : cur < endTs
    · rw [createCustomWindowsAux, createCustomWindowsAux, if_pos hc, if_pos hc]
      congr 1
      apply ih
      rcases le_or_lt endTs (cur + (p : ℚ)) with hme | hml
      · rw [min_eq_right hme, ratFloor_eq]
        simp
      · rw [min_eq_left (le_of_lt hml), ratFloor_eq]
        rw [ratFloor_eq] at hb
        have hfl : ⌊cur + (p : ℚ) - endTs⌋ = ⌊cur - endTs⌋ + p := by
          rw [show cur + (p : ℚ) - endTs = (cur - endTs) + (p : ℚ) by ring,
            Int.floor_add_int]
        rw [hfl]
        omega
    · rw [customAux_nil endTs p cur hc (f + 1), customAux_nil endTs p cur hc (f + 2)]

/-- Any amount of extra fuel beyond the bound is irrelevant. -/
theorem custom_stable_ge (endTs : ℚ) (p : ℤ) (hp : 1 ≤ p) (cur : ℚ) :
    ∀ k, createCustomWindowsAux endTs p ((-(cur - endTs).floor).toNat + k) cur
      = createCustomWindowsAux endTs p ((-(cur - endTs).floor).toNat) cur := by
  intro k
  induction k with
  | zero => rfl
  | succ k ih =>
    have hstep := custom_step_stable endTs p hp ((-(cur - endTs).floor).toNat + k) cur
      (Nat.le_add_right _ _)
    rw [show (-(cur - endTs).floor).toNat + (k + 1)
        = ((-(cur - endTs).floor).toNat + k) + 1 from rfl, ← hstep, ih]

/-- With a non-positive period the cursor never advances past the end
date, and every unit of fuel appends one more window: the loop does not
terminate. -/
theorem custom_nontermination (endTs : ℚ) (p : ℤ) (hp : p ≤ 0) :
    ∀ (f : ℕ) (cur : ℚ), cur < endTs →
      (createCustomWindowsAux endTs p f cur).length = f := by
  intro f
  induction f with
  | zero => intro cur _; rfl
  | succ f ih =>
    intro cur hlt
    rw [createCustomWindowsAux, if_pos hlt]
    have hple : (p : ℚ) ≤ 0 := by exact_mod_cast hp
    have h1 : cur + (p : ℚ) ≤ cur := by linarith
    have hm : min (cur + (p : ℚ)) endTs = cur + (p : ℚ) :=
      min_eq_left (le_trans h1 (le_of_lt hlt))
    rw [hm, List.length_cons, ih (cur + p) (lt_of_le_of_lt h1 hlt)]

/-- C10: `create_custom_windows` terminates with a finite window list for
every `period_days ≥ 1` — any fuel at least `customFuel` produces the same
list — and positivity is necessary: for `period_days ≤ 0` with a nonempty
horizon, every fuel budget is exhausted with one window per unit, so no
finite unrolling completes. -/
theorem custom_windows_termination (endTs : ℚ) (p : ℤ) (cur : ℚ) :
    (1 ≤ p → ∀ f, customFuel cur endTs ≤ f →
      createCustomWindowsAux endTs p f cur = create_custom_windows cur endTs p)
    ∧ (p ≤ 0 → cur < endTs → ∀ f, (createCustomWindowsAux endTs p f cur).length = f) := by
  constructor
  · intro hp f hf
    unfold create_custom_windows customFuel
    unfold customFuel at hf
    obtain ⟨k, hk⟩ : ∃ k, f = (-(cur - endTs).floor).toNat + k :=
      ⟨f - (-(cur - endTs).floor).toNat, by omega⟩
    rw [hk, custom_stable_ge endTs p hp cur k, ← custom_stable_ge endTs p hp cur 1]
  · intro hp hlt f
    exact custom_nontermination endTs p hp f cur hlt

/-- Witness for `custom_windows_termination`: horizon `[0, 10]` with
period 3 stabilizes at fuel 99, and with period 0 the fuel is consumed
one window per unit. -/
theorem custom_windows_termination_witness :
    createCustomWindowsAux 10 3 99 0 = create_custom_windows 0 10 3
    ∧ (createCustomWindowsAux 10 0 4 0).length = 4 :=
  ⟨(custom_windows_termination 10 3 0).1 (by norm_num) 99 (by with_unfolding_all decide),
   (custom_windows_termination 10 0 0).2 (by norm_num) (by norm_num) 4⟩

/-- Propositional reading of the leap-year test. -/
theorem isLeap_iff (y : ℕ) :
    isLeap y = true ↔ (y % 4 = 0 ∧ (y % 100 ≠ 0 ∨ y % 400 = 0)) := by
  simp [isLeap]

set_option maxHeartbeats 4000000 in
/-- One-year step of the cumulative day count (years from 1). -/
theorem daysBeforeYear_succ (y : ℕ) (hy : 1 ≤ y) :
    daysBeforeYear (y + 1) = daysBeforeYear y + 365 + (if isLeap y = true then 1 else 0) := by
  unfold daysBeforeYear
  by_cases hL : isLeap y = true
  · obtain ⟨h4, hor⟩ := (isLeap_iff y).mp hL
    rw [if_pos hL]
    clear hL
    omega
  · have hn : ¬ (y % 4 = 0 ∧ (y % 100 ≠ 0 ∨ y % 400 = 0)) :=
      fun h => hL ((isLeap_iff y).mpr h)
    rw [if_neg hL]
    clear hL
    omega

set_option maxHeartbeats 1000000 in
/-- Every month has at least one day. -/
theorem monthLen_pos (y m : ℕ) : 1 ≤ monthLen y m := by
  unfold monthLen
  split_ifs <;> omega

/-- One-month step of the cumulative day count within a year. -/
theorem daysBeforeMonth_succ (y m : ℕ) (hm1 : 1 ≤ m) (hm : m ≤ 11) :
    daysBeforeMonth y (m + 1) = daysBeforeMonth y m + monthLen y m := by
  by_cases hL : isLeap y = true <;>
    interval_cases m <;>
      simp [daysBeforeMonth, monthLen, hL]

/-- Ordinal identity for the month step: the first day of the next month
is one past the last day of this month. -/
theorem toOrdinal_nextMonth (t : Dt) (hy : 1 ≤ t.year) (hm1 : 1 ≤ t.month)
    (hm : t.month ≤ 12) :
    toOrdinal (nextMonthFirst t).year (nextMonthFirst t).month (nextMonthFirst t).day
      = toOrdinal t.year t.month (monthLen t.year t.month) + 1 := by
  unfold nextMonthFirst
  by_cases h12 : t.month = 12
  · rw [if_pos h12]
    dsimp only
    rw [h12]
    unfold toOrdinal
    rw [daysBeforeYear_succ t.year hy]
    by_cases hL : isLeap t.year = true <;>
      simp [daysBeforeMonth, monthLen, hL]
  · rw [if_neg h12]
    dsimp only
    unfold toOrdinal
    rw [daysBeforeMonth_succ t.year t.month hm1 (by omega)]
    omega

/-- Timestamp of the 23:59:59 month cap. -/
theorem monthCap_ts (t : Dt) : (monthCap t).ts
    = (toOrdinal t.year t.month (monthLen t.year t.month) : ℚ) + 86399 / 86400 := rfl

/-- Timestamp of the first instant of the next month. -/
theorem nextMonthFirst_ts (t : Dt) (hy : 1 ≤ t.year) (hm1 : 1 ≤ t.month)
    (hm : t.month ≤ 12) :
    (nextMonthFirst t).ts = (toOrdinal t.year t.month (monthLen t.year t.month) : ℚ) + 1 := by
  unfold Dt.ts
  rw [toOrdinal_nextMonth t hy hm1 hm]
  have hsecs : (nextMonthFirst t).secs = 0 := by
    unfold nextMonthFirst
    split <;> rfl
  rw [hsecs]
  push_cast
  ring

/-- Advancing to the next month preserves well-formedness. -/
theorem validDt_next (t : Dt) (h : validDt t) : validDt (nextMonthFirst t) := by
  obtain ⟨hy, hm1, hm, _⟩ := h
  unfold nextMonthFirst validDt
  by_cases h12 : t.month = 12
  · rw [if_pos h12]
    refine ⟨?_, ?_, ?_, ?_, ?_, ?_, ?_⟩ <;> dsimp only
    · omega
    · norm_num
    · norm_num
    · norm_num
    · exact monthLen_pos _ _
    · norm_num
    · norm_num
  · rw [if_neg h12]
    refine ⟨?_, ?_, ?_, ?_, ?_, ?_, ?_⟩ <;> dsimp only
    · omega
    · omega
    · omega
    · norm_num
    · exact monthLen_pos _ _
    · norm_num
    · norm_num

/-- A well-formed datetime does not pass its month's 23:59:59 cap. -/
theorem cur_le_cap (t : Dt) (h : validDt t) : t.ts ≤ (monthCap t).ts := by
  obtain ⟨hy, hm1, hm, hd1, hd, hs0, hs⟩ := h
  rw [monthCap_ts]
  unfold Dt.ts
  have h1 : (toOrdinal t.year t.month t.day : ℚ)
      ≤ (toOrdinal t.year t.month (monthLen t.year t.month) : ℚ) := by
    have hord : toOrdinal t.year t.month t.day
        ≤ toOrdinal t.year t.month (monthLen t.year t.month) := by
      unfold toOrdinal
      omega
    exact_mod_cast hord
  have h2 : t.secs / 86400 ≤ (86399 : ℚ) / 86400 :=
    (div_le_div_iff_of_pos_right (by norm_num)).mpr hs
  linarith

/-- The month cap lies strictly before the first instant of the next
month (the one-second sliver between monthly windows). -/
theorem cap_lt_next (t : Dt) (h : validDt t) :
    (monthCap t).ts < (nextMonthFirst t).ts := by
  obtain ⟨hy, hm1, hm, _⟩ := h
  rw [monthCap_ts, nextMonthFirst_ts t hy hm1 hm]
  have : (86399 : ℚ) / 86400 < 1 := by norm_num
  linarith

/-- An empty monthly window list means the fuel ran out or the horizon was
exhausted. -/
theorem monthAux_ne_nil_inv (endTs : ℚ) (f : ℕ) (c : Dt)
    (h : getMonthWindowsAux endTs f c ≠ []) : 1 ≤ f ∧ c.ts < endTs := by
  cases f with
  | zero => exact absurd rfl h
  | succ f =>
    by_cases hc : c.ts < endTs
    · exact ⟨by omega, hc⟩
    · rw [getMonthWindowsAux, if_neg hc] at h
      exact absurd rfl h

/-- Elements reached through `getLast?` are members. -/
theorem getLast?_mem {α : Type _} (l : List α) (a : α) (h : l.getLast? = some a) :
    a ∈ l := by
  have hx : a ∈ l.getLast? := h ▸ rfl
  obtain ⟨hne, heq⟩ := List.mem_getLast?_eq_getLast hx
  rw [heq]
  exact List.getLast_mem hne

/-- Shape of the custom window list with a positive period: starts at the
cursor, ends exactly at the end date, chains contiguously, and covers the
whole horizon. -/
theorem custom_master (endTs : ℚ) (p : ℤ) (hp : 1 ≤ p) :
    ∀ (f : ℕ) (cur : ℚ), cur < endTs → (-(cur - endTs).floor).toNat < f →
      createCustomWindowsAux endTs p f cur ≠ []
      ∧ (createCustomWindowsAux endTs p f cur).head?.map Prod.fst = some cur
      ∧ (createCustomWindowsAux endTs p f cur).getLast?.map Prod.snd = some endTs
      ∧ List.Chain' (fun w1 w2 => w1.2 = w2.1) (createCustomWindowsAux endTs p f cur)
      ∧ (∀ w ∈ createCustomWindowsAux endTs p f cur, w.1 < w.2 ∧ w.2 ≤ endTs)
      ∧ (∀ t : ℚ, cur ≤ t → t ≤ endTs →
          ∃ w ∈ createCustomWindowsAux endTs p f cur, w.1 ≤ t ∧ t ≤ w.2) := by
  intro f
  induction f with
  | zero => intro cur _ hb; exact absurd hb (Nat.not_lt_zero _)
  | succ f ih =>
    intro cur hc hb
    have hppos : (0 : ℚ) < (p : ℚ) := by
      have : (1 : ℚ) ≤ (p : ℚ) := by exact_mod_cast hp
      linarith
    rw [createCustomWindowsAux, if_pos hc]
    rcases le_or_lt endTs (cur + (p : ℚ)) with hme | hml
    · have hm : min (cur + (p : ℚ)) endTs = endTs := min_eq_right hme
      rw [hm, customAux_nil endTs p endTs (lt_irrefl endTs) f]
      refine ⟨List.cons_ne_nil _ _, rfl, rfl, List.chain'_singleton _, ?_, ?_⟩
      · intro w hw
        rw [List.mem_singleton.mp hw]
        exact ⟨hc, le_refl _⟩
      · intro t ht1 ht2
        exact ⟨(cur, endTs), List.mem_singleton.mpr rfl, ht1, ht2⟩
    · have hm : min (cur + (p : ℚ)) endTs = cur + (p : ℚ) := min_eq_left (le_of_lt hml)
      rw [hm]
      have hb2 : (-(cur + (p : ℚ) - endTs).floor).toNat < f := by
        rw [ratFloor_eq] at hb ⊢
        rw [show cur + (p : ℚ) - endTs = (cur - endTs) + (p : ℚ) by ring, Int.floor_add_int]
        have hKneg : ⌊cur - endTs⌋ < 0 := by
          rw [Int.floor_lt]
          push_cast
          linarith
        omega
      obtain ⟨hne, hhead, hlast, hchain, hbounds, hcov⟩ := ih (cur + (p : ℚ)) hml hb2
      refine ⟨List.cons_ne_nil _ _, rfl, ?_, ?_, ?_, ?_⟩
      · cases hrest : createCustomWindowsAux endTs p f (cur + (p : ℚ)) with
        | nil => exact absurd hrest hne
        | cons r rs =>
          rw [hrest] at hlast
          rw [List.getLast?_cons_cons]
          exact hlast
      · cases hrest : createCustomWindowsAux endTs p f (cur + (p : ℚ)) with
        | nil => exact List.chain'_singleton _
        | cons r rs =>
          rw [hrest] at hchain hhead
          rw [List.chain'_cons]
          refine ⟨?_, hchain⟩
          have hr1 : r.1 = cur + (p : ℚ) := by
            have := Option.some.inj hhead
            exact this.symm ▸ rfl
          rw [hr1]
      · intro w hw
        rcases List.mem_cons.mp hw with h | h
        · rw [h]
          constructor
          · show cur < cur + (p : ℚ)
            linarith
          · show cur + (p : ℚ) ≤ endTs
            exact le_of_lt hml
        · exact hbounds w h
      · intro t ht1 ht2
        by_cases htp : t ≤ cur + (p : ℚ)
        · exact ⟨(cur, cur + (p : ℚ)), List.mem_cons_self _ _, ht1, htp⟩
        · obtain ⟨w, hwmem, hw1, hw2⟩ := hcov t (le_of_lt (not_le.mp htp)) ht2
          exact ⟨w, List.mem_cons_of_mem _ hwmem, hw1, hw2⟩

/-- Shape of the monthly window list: strictly separated chronological
windows bounded by the end date, starting at the cursor, and covering
every whole-day instant up to the last window's end. -/
theorem month_master (endTs : ℚ) :
    ∀ (f : ℕ) (cur : Dt), validDt cur →
      List.Chain' (fun w1 w2 => w1.2 < w2.1) (getMonthWindowsAux endTs f cur)
      ∧ (∀ w ∈ getMonthWindowsAux endTs f cur, w.1 ≤ w.2 ∧ w.2 ≤ endTs)
      ∧ (cur.ts < endTs → 1 ≤ f →
          (getMonthWindowsAux endTs f cur).head?.map Prod.fst = some cur.ts)
      ∧ (∀ le, (getMonthWindowsAux endTs f cur).getLast? = some le →
          ∀ t : ℤ, cur.ts ≤ (t : ℚ) → (t : ℚ) ≤ le.2 →
            ∃ w ∈ getMonthWindowsAux endTs f cur, w.1 ≤ (t : ℚ) ∧ (t : ℚ) ≤ w.2) := by
  intro f
  induction f with
  | zero =>
    intro cur _
    refine ⟨List.chain'_nil, fun w hw => absurd hw (List.not_mem_nil w),
      fun _ h1 => absurd h1 (by norm_num), fun le hle => Option.noConfusion hle⟩
  | succ f ih =>
    intro cur hv
    by_cases hc : cur.ts < endTs
    case neg =>
      rw [getMonthWindowsAux, if_neg hc]
      exact ⟨List.chain'_nil, fun w hw => absurd hw (List.not_mem_nil w),
        fun h1 _ => absurd h1 hc, fun le hle => Option.noConfusion hle⟩
    case pos =>
      rw [getMonthWindowsAux, if_pos hc]
      obtain ⟨ihchain, ihbounds, ihhead, ihcov⟩ := ih (nextMonthFirst cur) (validDt_next cur hv)
      have hwle : cur.ts ≤ min (monthCap cur).ts endTs :=
        le_min (cur_le_cap cur hv) (le_of_lt hc)
      refine ⟨?_, ?_, ?_, ?_⟩
      · cases hrest : getMonthWindowsAux endTs f (nextMonthFirst cur) with
        | nil => exact List.chain'_singleton _
        | cons r rs =>
          rw [List.chain'_cons]
          constructor
          · obtain ⟨hf1, hnext⟩ := monthAux_ne_nil_inv endTs f (nextMonthFirst cur)
              (by rw [hrest]; exact List.cons_ne_nil _ _)
            have hh := ihhead hnext hf1
            rw [hrest] at hh
            simp only [List.head?_cons, Option.map_some', Option.some.injEq] at hh
            show min (monthCap cur).ts endTs < r.1
            calc min (monthCap cur).ts endTs ≤ (monthCap cur).ts := min_le_left _ _
              _ < (nextMonthFirst cur).ts := cap_lt_next cur hv
              _ = r.1 := hh.symm
          · rw [hrest] at ihchain
            exact ihchain
      · intro w hw
        rcases List.mem_cons.mp hw with h | h
        · rw [h]
          constructor
          · show cur.ts ≤ min (monthCap cur).ts endTs
            exact hwle
          · show min (monthCap cur).ts endTs ≤ endTs
            exact min_le_right _ _
        · exact ihbounds w h
      · intro _ _
        rfl
      · intro le hlast t ht1 ht2
        cases hrest : getMonthWindowsAux endTs f (nextMonthFirst cur) with
        | nil =>
          rw [hrest] at hlast
          have hle : (cur.ts, min (monthCap cur).ts endTs) = le := Option.some.inj hlast
          refine ⟨(cur.ts, min (monthCap cur).ts endTs), List.mem_cons_self _ _, ht1, ?_⟩
          rw [← hle] at ht2
          exact ht2
        | cons r rs =>
          rw [hrest] at hlast
          rw [List.getLast?_cons_cons] at hlast
          by_cases htm : (t : ℚ) ≤ min (monthCap cur).ts endTs
          · exact ⟨(cur.ts, min (monthCap cur).ts endTs), List.mem_cons_self _ _, ht1, htm⟩
          · have htm2 : min (monthCap cur).ts endTs < (t : ℚ) := not_le.mp htm
            have hnext_le : (nextMonthFirst cur).ts ≤ (t : ℚ) := by
              rcases min_cases (monthCap cur).ts endTs with ⟨hmeq, _⟩ | ⟨hmeq, _⟩
              · rw [hmeq, monthCap_ts] at htm2
                rw [nextMonthFirst_ts cur hv.1 hv.2.1 hv.2.2.1]
                have hN : ((toOrdinal cur.year cur.month (monthLen cur.year cur.month) : ℤ) : ℚ)
                    < (t : ℚ) := by
                  push_cast
                  linarith [show (0 : ℚ) ≤ 86399 / 86400 by norm_num]
                have hNZ : (toOrdinal cur.year cur.month (monthLen cur.year cur.month) : ℤ) < t := by
                  exact_mod_cast hN
                have hNZ1 : ((toOrdinal cur.year cur.month (monthLen cur.year cur.month) : ℤ) + 1) ≤ t :=
                  hNZ
                exact_mod_cast hNZ1
              · rw [hmeq] at htm2
                have hmem : le ∈ r :: rs := getLast?_mem _ le hlast
                have hb2 := (ihbounds le (hrest ▸ hmem)).2
                linarith
            obtain ⟨w, hwmem, hw1, hw2⟩ := ihcov le (by rw [hrest]; exact hlast) t hnext_le ht2
            rw [hrest] at hwmem
            exact ⟨w, List.mem_cons_of_mem _ hwmem, hw1, hw2⟩

set_option maxRecDepth 4000 in
/-- C3 (amended): over `[start_date, end_date]` with `start_date < end_date`,
fixed-period windows (period ≥ 1 day) are in chronological order, contiguous
and non-overlapping, start at the start date, end exactly at the end date even
when the period does not divide the horizon, and their union covers the whole
interval.  Monthly windows are in strictly separated chronological order
(each ends at 23:59:59, one second before the next begins), are bounded by the
end date, start at the start date, and cover every whole-day instant up to the
last window's end; and the 2024-01-01 → 2024-03-15 scenario yields exactly 3
windows with the third ending at 2024-03-15. -/
theorem window_partition :
    (∀ (s e : ℚ) (p : ℤ), 1 ≤ p → s < e →
      (create_custom_windows s e p).head?.map Prod.fst = some s
      ∧ (create_custom_windows s e p).getLast?.map Prod.snd = some e
      ∧ List.Chain' (fun w1 w2 => w1.2 = w2.1) (create_custom_windows s e p)
      ∧ (∀ w ∈ create_custom_windows s e p, w.1 < w.2 ∧ w.2 ≤ e)
      ∧ (∀ t : ℚ, s ≤ t → t ≤ e →
          ∃ w ∈ create_custom_windows s e p, w.1 ≤ t ∧ t ≤ w.2))
    ∧ (∀ (ed : Dt) (f : ℕ) (cur : Dt), validDt cur →
      List.Chain' (fun w1 w2 => w1.2 < w2.1) (getMonthWindowsAux ed.ts f cur)
      ∧ (∀ w ∈ getMonthWindowsAux ed.ts f cur, w.1 ≤ w.2 ∧ w.2 ≤ ed.ts)
      ∧ (cur.ts < ed.ts → 1 ≤ f →
          (getMonthWindowsAux ed.ts f cur).head?.map Prod.fst = some cur.ts)
      ∧ (∀ le, (getMonthWindowsAux ed.ts f cur).getLast? = some le →
          ∀ t : ℤ, cur.ts ≤ (t : ℚ) → (t : ℚ) ≤ le.2 →
            ∃ w ∈ getMonthWindowsAux ed.ts f cur, w.1 ≤ (t : ℚ) ∧ (t : ℚ) ≤ w.2))
    ∧ ((get_month_windows ⟨2024, 1, 1, 0⟩ ⟨2024, 3, 15, 0⟩).length = 3
      ∧ (get_month_windows ⟨2024, 1, 1, 0⟩ ⟨2024, 3, 15, 0⟩).getLast?.map Prod.snd
          = some ((⟨2024, 3, 15, 0⟩ : Dt).ts)) := by
  refine ⟨?_, ?_, ?_⟩
  · intro s e p hp hse
    obtain ⟨_, hh, hl, hch, hb, hcov⟩ :=
      custom_master e p hp (customFuel s e) s hse (Nat.lt_succ_self _)
    exact ⟨hh, hl, hch, hb, hcov⟩
  · intro ed f cur hv
    exact month_master ed.ts f cur hv
  · have hstep : ∀ (eT : ℚ) (f : ℕ) (cur : Dt),
        getMonthWindowsAux eT (f + 1) cur =
          if cur.ts < eT then
            (cur.ts, min (monthCap cur).ts eT) :: getMonthWindowsAux eT f (nextMonthFirst cur)
          else [] := fun _ _ _ => rfl
    have hts1 : (⟨2024, 1, 1, (0 : ℚ)⟩ : Dt).ts = 738886 := by
      show ((toOrdinal 2024 1 1 : ℕ) : ℚ) + 0 / 86400 = 738886
      rw [show toOrdinal 2024 1 1 = 738886 from by decide]
      norm_num
    have hts2 : (⟨2024, 2, 1, (0 : ℚ)⟩ : Dt).ts = 738917 := by
      show ((toOrdinal 2024 2 1 : ℕ) : ℚ) + 0 / 86400 = 738917
      rw [show toOrdinal 2024 2 1 = 738917 from by decide]
      norm_num
    have hts3 : (⟨2024, 3, 1, (0 : ℚ)⟩ : Dt).ts = 738946 := by
      show ((toOrdinal 2024 3 1 : ℕ) : ℚ) + 0 / 86400 = 738946
      rw [show toOrdinal 2024 3 1 = 738946 from by decide]
      norm_num
    have hts4 : (⟨2024, 4, 1, (0 : ℚ)⟩ : Dt).ts = 738977 := by
      show ((toOrdinal 2024 4 1 : ℕ) : ℚ) + 0 / 86400 = 738977
      rw [show toOrdinal 2024 4 1 = 738977 from by decide]
      norm_num
    have htse : (⟨2024, 3, 15, (0 : ℚ)⟩ : Dt).ts = 738960 := by
      show ((toOrdinal 2024 3 15 : ℕ) : ℚ) + 0 / 86400 = 738960
      rw [show toOrdinal 2024 3 15 = 738960 from by decide]
      norm_num
    have hcap1 : (monthCap ⟨2024, 1, 1, (0 : ℚ)⟩).ts = 738916 + 86399 / 86400 := by
      show ((toOrdinal 2024 1 (monthLen 2024 1) : ℕ) : ℚ) + 86399 / 86400 = _
      rw [show toOrdinal 2024 1 (monthLen 2024 1) = 738916 from by decide]
      norm_num
    have hcap2 : (monthCap ⟨2024, 2, 1, (0 : ℚ)⟩).ts = 738945 + 86399 / 86400 := by
      show ((toOrdinal 2024 2 (monthLen 2024 2) : ℕ) : ℚ) + 86399 / 86400 = _
      rw [show toOrdinal 2024 2 (monthLen 2024 2) = 738945 from by decide]
      norm_num
    have hcap3 : (monthCap ⟨2024, 3, 1, (0 : ℚ)⟩).ts = 738976 + 86399 / 86400 := by
      show ((toOrdinal 2024 3 (monthLen 2024 3) : ℕ) : ℚ) + 86399 / 86400 = _
      rw [show toOrdinal 2024 3 (monthLen 2024 3) = 738976 from by decide]
      norm_num
    have hnext1 : nextMonthFirst ⟨2024, 1, 1, (0 : ℚ)⟩ = ⟨2024, 2, 1, 0⟩ := rfl
    have hnext2 : nextMonthFirst ⟨2024, 2, 1, (0 : ℚ)⟩ = ⟨2024, 3, 1, 0⟩ := rfl
    have hnext3 : nextMonthFirst ⟨2024, 3, 1, (0 : ℚ)⟩ = ⟨2024, 4, 1, 0⟩ := rfl
    have hlist : get_month_windows ⟨2024, 1, 1, 0⟩ ⟨2024, 3, 15, 0⟩ =
        [((738886 : ℚ), 738916 + 86399 / 86400),
         (738917, 738945 + 86399 / 86400),
         (738946, 738960)] := by
      show getMonthWindowsAux ((⟨2024, 3, 15, (0 : ℚ)⟩ : Dt).ts)
        (monthFuel ⟨2024, 1, 1, 0⟩ ⟨2024, 3, 15, 0⟩) ⟨2024, 1, 1, 0⟩ = _
      rw [htse, show monthFuel ⟨2024, 1, 1, (0 : ℚ)⟩ ⟨2024, 3, 15, (0 : ℚ)⟩ = 24 + 1 from rfl]
      rw [hstep, hts1, hcap1, hnext1,
        if_pos (by norm_num : (738886 : ℚ) < 738960),
        min_eq_left (by norm_num : (738916 + 86399 / 86400 : ℚ) ≤ 738960)]
      rw [show (24 : ℕ) = 23 + 1 from rfl, hstep, hts2, hcap2, hnext2,
        if_pos (by norm_num : (738917 : ℚ) < 738960),
        min_eq_left (by norm_num : (738945 + 86399 / 86400 : ℚ) ≤ 738960)]
      rw [show (23 : ℕ) = 22 + 1 from rfl, hstep, hts3, hcap3, hnext3,
        if_pos (by norm_num : (738946 : ℚ) < 738960),
        min_eq_right (by norm_num : (738960 : ℚ) ≤ 738976 + 86399 / 86400)]
      rw [show (22 : ℕ) = 21 + 1 from rfl, hstep, hts4,
        if_neg (by norm_num : ¬ (738977 : ℚ) < 738960)]
    refine ⟨?_, ?_⟩
    · rw [hlist]
      rfl
    · rw [hlist, htse]
      rfl

/-- Witness for `window_partition`: custom windows over `[0, 10]` with
period 3 end exactly at 10, and the monthly windows of the 2024 scenario
are bounded by the end date. -/
theorem window_partition_witness :
    ((create_custom_windows 0 10 3).getLast?.map Prod.snd = some 10)
    ∧ (∀ w ∈ getMonthWindowsAux ((⟨2024, 3, 15, 0⟩ : Dt).ts) 3 ⟨2024, 1, 1, 0⟩,
        w.1 ≤ w.2 ∧ w.2 ≤ ((⟨2024, 3, 15, 0⟩ : Dt).ts)) :=
  ⟨(window_partition.1 0 10 3 (by norm_num) (by norm_num)).2.1,
   (window_partition.2.1 ⟨2024, 3, 15, 0⟩ 3 ⟨2024, 1, 1, 0⟩
      ⟨by norm_num, by norm_num, by norm_num, by norm_num, by decide,
       by norm_num, by norm_num⟩).2.1⟩

/-- Counterexample to C3 as stated: monthly windows from 2024-01-01 to
2024-02-01 produce a single window ending at 2024-01-31 23:59:59, not at the
end date, and the instant one second before the end date is covered by no
window, so the union does not cover the interval. -/
theorem c3_counterexample :
    (⟨2024, 1, 1, (0 : ℚ)⟩ : Dt).ts < (⟨2024, 2, 1, (0 : ℚ)⟩ : Dt).ts
    ∧ (get_month_windows ⟨2024, 1, 1, 0⟩ ⟨2024, 2, 1, 0⟩).getLast?.map Prod.snd
        ≠ some ((⟨2024, 2, 1, 0⟩ : Dt).ts)
    ∧ (∃ t : ℚ, (⟨2024, 1, 1, (0 : ℚ)⟩ : Dt).ts ≤ t
        ∧ t ≤ (⟨2024, 2, 1, (0 : ℚ)⟩ : Dt).ts
        ∧ ∀ w ∈ get_month_windows ⟨2024, 1, 1, 0⟩ ⟨2024, 2, 1, 0⟩,
            ¬ (w.1 ≤ t ∧ t ≤ w.2)) := by
  have hstep : ∀ (eT : ℚ) (f : ℕ) (cur : Dt),
      getMonthWindowsAux eT (f + 1) cur =
        if cur.ts < eT then
          (cur.ts, min (monthCap cur).ts eT) :: getMonthWindowsAux eT f (nextMonthFirst cur)
        else [] := fun _ _ _ => rfl
  have hts1 : (⟨2024, 1, 1, (0 : ℚ)⟩ : Dt).ts = 738886 := by
    show ((toOrdinal 2024 1 1 : ℕ) : ℚ) + 0 / 86400 = 738886
    rw [show toOrdinal 2024 1 1 = 738886 from by decide]
    norm_num
  have hts2 : (⟨2024, 2, 1, (0 : ℚ)⟩ : Dt).ts = 738917 := by
    show ((toOrdinal 2024 2 1 : ℕ) : ℚ) + 0 / 86400 = 738917
    rw [show toOrdinal 2024 2 1 = 738917 from by decide]
    norm_num
  have hcap1 : (monthCap ⟨2024, 1, 1, (0 : ℚ)⟩).ts = 738916 + 86399 / 86400 := by
    show ((toOrdinal 2024 1 (monthLen 2024 1) : ℕ) : ℚ) + 86399 / 86400 = _
    rw [show toOrdinal 2024 1 (monthLen 2024 1) = 738916 from by decide]
    norm_num
  have hnext1 : nextMonthFirst ⟨2024, 1, 1, (0 : ℚ)⟩ = ⟨2024, 2, 1, 0⟩ := rfl
  have hlist : get_month_windows ⟨2024, 1, 1, 0⟩ ⟨2024, 2, 1, 0⟩ =
      [((738886 : ℚ), 738916 + 86399 / 86400)] := by
    show getMonthWindowsAux ((⟨2024, 2, 1, (0 : ℚ)⟩ : Dt).ts)
      (monthFuel ⟨2024, 1, 1, 0⟩ ⟨2024, 2, 1, 0⟩) ⟨2024, 1, 1, 0⟩ = _
    rw [hts2, show monthFuel ⟨2024, 1, 1, (0 : ℚ)⟩ ⟨2024, 2, 1, (0 : ℚ)⟩ = 24 + 1 from rfl]
    rw [hstep, hts1, hcap1, hnext1,
      if_pos (by norm_num : (738886 : ℚ) < 738917),
      min_eq_left (by norm_num : (738916 + 86399 / 86400 : ℚ) ≤ 738917)]
    rw [show (24 : ℕ) = 23 + 1 from rfl, hstep, hts2,
      if_neg (by norm_num : ¬ (738917 : ℚ) < 738917)]
  refine ⟨?_, ?_, ⟨738916 + 172799 / 172800, ?_, ?_, ?_⟩⟩
  · rw [hts1, hts2]
    norm_num
  · rw [hlist, hts2]
    exact fun h => absurd (Option.some.inj h) (by norm_num)
  · rw [hts1]
    norm_num
  · rw [hts2]
    norm_num
  · rw [hlist]
    intro w hw
    rw [List.mem_singleton] at hw
    subst hw
    intro hcon
    have h2 := hcon.2
    norm_num at h2

end DelayAnalyzer
